import Mathlib

/-
  Verification of the CppSerializer specification against the source of
  src/my_serializer.h (namespaces BinarySerialize and XMLSerialize).

  Shallow embedding conventions:
  * Bytes and characters are `Nat` (the C++ code works on `unsigned char`
    and `char`; the hypotheses of theorems bound them by 256 where the
    C++ type system did).
  * The byte stream of the binary codec is a `List Nat`.
  * C++ exceptions (`throw MyErr(...)`) are modelled with `Except`;
    the distinct error kinds of the design (I/O, structural, format)
    are distinct constructors.
  * Paths on which the C++ program has undefined behaviour (null-pointer
    dereference, out-of-range float-to-integer cast) are modelled with a
    dedicated `ub` outcome, distinct from every thrown error.
-/

namespace XMLSerialize

/-! ## Base64 transform (XMLConverter::base64_encode / base64_decode)

The C++ code stores characters in `std::string`; here a character is its
code point as a `Nat` ('A' = 65, 'a' = 97, '0' = 48, '+' = 43, '/' = 47,
'=' = 61).  Bit masks of the source are written with division and
remainder: for `b < 256` one has `(b & 0xfc) >> 2 = b / 4`,
`(b & 0x03) << 4 = b % 4 * 16`, `(b & 0xf0) >> 4 = b / 16`,
`(b & 0x0f) << 2 = b % 16 * 4`, `(b & 0xc0) >> 6 = b / 64`,
`(b & 0x3f) = b % 64`, and for a table index `c < 64`
`(c << 2) = c * 4`, `(c & 0x30) >> 4 = c / 16`, `(c & 0xf) << 4 = c % 16 * 16`,
`(c & 0x3c) >> 2 = c / 4`, `(c & 0x3) << 6 = c % 4 * 64`. -/

/-- The base64 alphabet `"A-Z a-z 0-9 + /"` of the source, as code points. -/
def base64_chars : List Nat :=
  (List.range 26).map (fun i => 65 + i) ++
  (List.range 26).map (fun i => 97 + i) ++
  (List.range 10).map (fun i => 48 + i) ++ [43, 47]

/-- `base64_chars[i]` of the source (index is always in range there). -/
def b64charAt (i : Nat) : Nat := base64_chars.getD i 0

/-- `base64_chars.find(c)` of the source: index of `c` in the table. -/
def b64pos (c : Nat) : Option Nat := base64_chars.findIdx? (fun d => d = c)

/-- `isalnum(c)` of the C locale: decimal digits and ASCII letters. -/
def isalnumC (c : Nat) : Bool :=
  (48 ≤ c && c ≤ 57) || (65 ≤ c && c ≤ 90) || (97 ≤ c && c ≤ 122)

/-- The guard `isalnum(c) || c == '+' || c == '/'` used by both the
cleaning pass (together with `c == '='`) and the decode loop. -/
def isB64Char (c : Nat) : Bool := isalnumC c || c = 43 || c = 47

/-- One full 3-byte group of `base64_encode`: the four table indices
computed from `char_array_3` (see the mask table above). -/
def enc4 (b0 b1 b2 : Nat) : List Nat :=
  [b0 / 4, b0 % 4 * 16 + b1 / 16, b1 % 16 * 4 + b2 / 64, b2 % 64]

/-- `XMLConverter::base64_encode`.  The source accumulates three bytes and
flushes four characters; a trailing group of one or two bytes is padded
with zero bytes, only the first `i + 1` characters are emitted, and the
output is filled to a 4-character boundary with `'='`. -/
def base64_encode : List Nat → List Nat
  | [] => []
  | [b0] =>
      [b64charAt (b0 / 4), b64charAt (b0 % 4 * 16), 61, 61]
  | [b0, b1] =>
      [b64charAt (b0 / 4), b64charAt (b0 % 4 * 16 + b1 / 16),
       b64charAt (b1 % 16 * 4), 61]
  | b0 :: b1 :: b2 :: rest =>
      (enc4 b0 b1 b2).map b64charAt ++ base64_encode rest

/-- Error kinds of `base64_decode`: `badLen` is
`"Invalid Base64 string length."`, `badChar` is
`"Invalid character in Base64 string."`. -/
inductive B64Err where
  | badLen
  | badChar
deriving DecidableEq

/-- The three bytes computed from four table indices (`char_array_3` of the
decode path, masks as in the table above, indices `< 64`). -/
def dec3 (c0 c1 c2 c3 : Nat) : List Nat :=
  [c0 * 4 + c1 / 16, c1 % 16 * 16 + c2 / 4, c2 % 4 * 64 + c3]

/-- The `i == 4` block of the decode loop: look every character of the
group up in the table, throwing on a character that is not found. -/
def decode_group (g0 g1 g2 g3 : Nat) : Except B64Err (List Nat) :=
  match b64pos g0, b64pos g1, b64pos g2, b64pos g3 with
  | some c0, some c1, some c2, some c3 => .ok (dec3 c0 c1 c2 c3)
  | _, _, _, _ => .error .badChar

/-- The table lookup of the trailing-padding block: a character that is
not found in the table is replaced by 0 (no error). -/
def b64posOr0 (c : Nat) : Nat := (b64pos c).getD 0

/-- The `i > 0` block after the decode loop: the partial group is filled
with zero characters, looked up with `b64posOr0`, and the first
`i - 1` of the three reconstructed bytes are appended. -/
def finish_tail (group : List Nat) (out : List Nat) : List Nat :=
  match group with
  | [] => out
  | [g0] =>
      -- i = 1: the source pushes `j < i - 1 = 0` bytes, so nothing
      let c0 := b64posOr0 g0
      let c1 := b64posOr0 0
      out ++ (dec3 c0 c1 (b64posOr0 0) (b64posOr0 0)).take 0
  | [g0, g1] =>
      out ++ (dec3 (b64posOr0 g0) (b64posOr0 g1)
                   (b64posOr0 0) (b64posOr0 0)).take 1
  | [g0, g1, g2] =>
      out ++ (dec3 (b64posOr0 g0) (b64posOr0 g1) (b64posOr0 g2)
                   (b64posOr0 0)).take 2
  | _ => out  -- a group of four is always flushed inside the loop

/-- The main `while` loop of `base64_decode`: it consumes characters while
the current character is neither `'='` nor outside the guard
`isalnum || '+' || '/'`, flushes every full 4-character group through the
strict table lookup, and on exit hands the partial group to the
trailing-padding block. -/
def decode_loop (cs : List Nat) (group : List Nat) (out : List Nat) :
    Except B64Err (List Nat) :=
  match cs with
  | [] => .ok (finish_tail group out)
  | c :: rest =>
      if c = 61 || !(isB64Char c) then .ok (finish_tail group out)
      else
        match group with
        | [g0, g1, g2] =>
            match decode_group g0 g1 g2 c with
            | .ok bs => decode_loop rest [] (out ++ bs)
            | .error e => .error e
        | _ => decode_loop rest (group ++ [c]) out

/-- The cleaning pass of `base64_decode`: keep exactly the characters with
`isalnum(c) || c == '+' || c == '/' || c == '='`. -/
def clean_encoded (s : List Nat) : List Nat :=
  s.filter (fun c => isB64Char c || c = 61)

/-- `XMLConverter::base64_decode`: empty input returns the empty byte
vector at once; otherwise the input is cleaned, its length must be a
multiple of 4, and the loop runs on the cleaned characters. -/
def base64_decode (encoded : List Nat) : Except B64Err (List Nat) :=
  if encoded = [] then .ok []
  else
    let cleaned := clean_encoded encoded
    if cleaned.length % 4 ≠ 0 then .error .badLen
    else decode_loop cleaned [] []

example : base64_encode [77, 97, 110] = [84, 87, 70, 117] := by decide
example : base64_decode [84, 87, 70, 117] = .ok [77, 97, 110] := rfl
example : base64_encode [77] = [84, 81, 61, 61] := by decide
example : base64_decode [84, 81, 61, 61] = .ok [77] := rfl
example : base64_decode (base64_encode [1, 2]) = .ok [1, 2] := rfl
example :
    base64_decode [81, 81, 61, 61, 81, 85, 70, 66] = .ok [65] := rfl

/-! ### Facts about the alphabet table -/

theorem charAt_spec : ∀ i < 64, b64charAt i ≠ 61 ∧ isB64Char (b64charAt i) = true
    ∧ b64pos (b64charAt i) = some i := by decide

theorem charAt_ne61 (i : Nat) : b64charAt i ≠ 61 := by
  by_cases h : i < 64
  · exact (charAt_spec i h).1
  · have : base64_chars.length ≤ i := by
      have : base64_chars.length = 64 := by decide
      omega
    rw [b64charAt, List.getD_eq_default _ _ this]
    decide

theorem b64pos_none_iff (c : Nat) : b64pos c = none ↔ c ∉ base64_chars := by
  rw [b64pos, List.findIdx?_eq_none_iff]
  simp only [decide_eq_false_iff_not]
  constructor
  · intro h hc
    exact h c hc rfl
  · intro h x hx he
    exact h (he ▸ hx)

theorem isB64_lt (c : Nat) (h : isB64Char c = true) : c < 123 := by
  simp [isB64Char, isalnumC] at h
  omega

theorem isB64_mem : ∀ c < 123, isB64Char c = true → c ∈ base64_chars := by decide

theorem b64pos_isSome (c : Nat) (h : isB64Char c = true) :
    ∃ i, b64pos c = some i := by
  rcases ho : b64pos c with _ | i
  · exact absurd (isB64_mem c (isB64_lt c h) h) ((b64pos_none_iff c).mp ho)
  · exact ⟨i, rfl⟩

/-! ### Shape of the encoder output -/

theorem encode_length (bytes : List Nat) :
    (base64_encode bytes).length = 4 * ((bytes.length + 2) / 3) := by
  induction bytes using base64_encode.induct with
  | case1 => simp [base64_encode]
  | case2 b0 => simp [base64_encode]
  | case3 b0 b1 => simp [base64_encode]
  | case4 b0 b1 b2 rest ih =>
      simp [base64_encode, enc4, ih]
      omega

theorem encode_chars (bytes : List Nat) (hb : ∀ b ∈ bytes, b < 256) :
    ∀ c ∈ base64_encode bytes, (isB64Char c || c = 61) = true := by
  induction bytes using base64_encode.induct with
  | case1 => simp [base64_encode]
  | case2 b0 =>
      intro c hc
      have hb0 : b0 < 256 := hb b0 (by simp)
      simp [base64_encode] at hc
      have h0 : b0 / 4 < 64 := by omega
      have h1 : b0 % 4 * 16 < 64 := by omega
      rcases hc with rfl | rfl | rfl
      · simp [(charAt_spec _ h0).2.1]
      · simp [(charAt_spec _ h1).2.1]
      · decide
  | case3 b0 b1 =>
      intro c hc
      have hb0 : b0 < 256 := hb b0 (by simp)
      have hb1 : b1 < 256 := hb b1 (by simp)
      simp [base64_encode] at hc
      have h0 : b0 / 4 < 64 := by omega
      have h1 : b0 % 4 * 16 + b1 / 16 < 64 := by omega
      have h2 : b1 % 16 * 4 < 64 := by omega
      rcases hc with rfl | rfl | rfl | rfl
      · simp [(charAt_spec _ h0).2.1]
      · simp [(charAt_spec _ h1).2.1]
      · simp [(charAt_spec _ h2).2.1]
      · decide
  | case4 b0 b1 b2 rest ih =>
      intro c hc
      have hb0 : b0 < 256 := hb b0 (by simp)
      have hb1 : b1 < 256 := hb b1 (by simp)
      have hb2 : b2 < 256 := hb b2 (by simp)
      have hrest : ∀ b ∈ rest, b < 256 := fun b hm => hb b (by simp [hm])
      have h0 : b0 / 4 < 64 := by omega
      have h1 : b0 % 4 * 16 + b1 / 16 < 64 := by omega
      have h2 : b1 % 16 * 4 + b2 / 64 < 64 := by omega
      have h3 : b2 % 64 < 64 := by omega
      simp only [base64_encode, enc4, List.map, List.mem_append, List.mem_cons,
        List.not_mem_nil, or_false] at hc
      rcases hc with (rfl | rfl | rfl | rfl) | hc
      · simp [(charAt_spec _ h0).2.1]
      · simp [(charAt_spec _ h1).2.1]
      · simp [(charAt_spec _ h2).2.1]
      · simp [(charAt_spec _ h3).2.1]
      · exact ih hrest c hc

/-! ### Round trip of the transform -/

theorem dec3_enc4 (b0 b1 b2 : Nat) (h0 : b0 < 256) (h1 : b1 < 256)
    (h2 : b2 < 256) :
    dec3 (b0 / 4) (b0 % 4 * 16 + b1 / 16) (b1 % 16 * 4 + b2 / 64) (b2 % 64)
      = [b0, b1, b2] := by
  simp only [dec3, List.cons.injEq, and_true]
  omega

theorem decode_loop_stop (c : Nat) (rest group out : List Nat)
    (h : c = 61 ∨ isB64Char c = false) :
    decode_loop (c :: rest) group out = .ok (finish_tail group out) := by
  have hcond : (decide (c = 61) || !(isB64Char c)) = true := by
    rcases h with rfl | h
    · simp
    · simp [h]
  rw [decode_loop.eq_def]
  simp only [hcond, if_true]

theorem decode_loop_cons_small (c : Nat) (rest group out : List Nat)
    (hc : isB64Char c = true) (hne : c ≠ 61) (hlen : group.length < 3) :
    decode_loop (c :: rest) group out = decode_loop rest (group ++ [c]) out := by
  have hcond : (decide (c = 61) || !(isB64Char c)) = false := by
    simp [hc, hne]
  rw [decode_loop.eq_def]
  simp only [hcond, Bool.false_eq_true, if_false]
  rcases group with _ | ⟨g0, _ | ⟨g1, _ | ⟨g2, t⟩⟩⟩
  · rfl
  · rfl
  · rfl
  · simp only [List.length_cons] at hlen
    omega

theorem decode_loop_flush (c g0 g1 g2 : Nat) (rest out : List Nat)
    (hc : isB64Char c = true) (hne : c ≠ 61) :
    decode_loop (c :: rest) [g0, g1, g2] out =
      match decode_group g0 g1 g2 c with
      | .ok bs => decode_loop rest [] (out ++ bs)
      | .error e => .error e := by
  have hcond : (decide (c = 61) || !(isB64Char c)) = false := by
    simp [hc, hne]
  rw [decode_loop.eq_def]
  simp only [hcond, Bool.false_eq_true, if_false]

theorem decode_loop_encode (bytes : List Nat) (hb : ∀ b ∈ bytes, b < 256) :
    ∀ out, decode_loop (base64_encode bytes) [] out = .ok (out ++ bytes) := by
  induction bytes using base64_encode.induct with
  | case1 =>
      intro out
      simp [base64_encode, decode_loop, finish_tail]
  | case2 b0 =>
      intro out
      have hb0 : b0 < 256 := hb b0 (by simp)
      have h0 : b0 / 4 < 64 := by omega
      have h1 : b0 % 4 * 16 < 64 := by omega
      obtain ⟨hne0, hc0, hp0⟩ := charAt_spec _ h0
      obtain ⟨hne1, hc1, hp1⟩ := charAt_spec _ h1
      show decode_loop
        (b64charAt (b0 / 4) :: b64charAt (b0 % 4 * 16) :: 61 :: [61]) [] out
        = .ok (out ++ [b0])
      rw [decode_loop_cons_small _ _ _ _ hc0 hne0 (by simp),
        decode_loop_cons_small _ _ _ _ hc1 hne1 (by simp),
        decode_loop_stop _ _ _ _ (Or.inl rfl)]
      simp only [List.nil_append, List.singleton_append, finish_tail,
        b64posOr0, hp0, hp1, Option.getD_some, dec3, List.take]
      have : b0 / 4 * 4 + b0 % 4 * 16 / 16 = b0 := by omega
      rw [this]
  | case3 b0 b1 =>
      intro out
      have hb0 : b0 < 256 := hb b0 (by simp)
      have hb1 : b1 < 256 := hb b1 (by simp)
      have h0 : b0 / 4 < 64 := by omega
      have h1 : b0 % 4 * 16 + b1 / 16 < 64 := by omega
      have h2 : b1 % 16 * 4 < 64 := by omega
      obtain ⟨hne0, hc0, hp0⟩ := charAt_spec _ h0
      obtain ⟨hne1, hc1, hp1⟩ := charAt_spec _ h1
      obtain ⟨hne2, hc2, hp2⟩ := charAt_spec _ h2
      show decode_loop
        (b64charAt (b0 / 4) :: b64charAt (b0 % 4 * 16 + b1 / 16) ::
          b64charAt (b1 % 16 * 4) :: [61]) [] out = .ok (out ++ [b0, b1])
      rw [decode_loop_cons_small _ _ _ _ hc0 hne0 (by simp),
        decode_loop_cons_small _ _ _ _ hc1 hne1 (by simp),
        decode_loop_cons_small _ _ _ _ hc2 hne2 (by simp),
        decode_loop_stop _ _ _ _ (Or.inl rfl)]
      simp only [List.nil_append, List.singleton_append, List.cons_append,
        finish_tail, b64posOr0, hp0, hp1, hp2, Option.getD_some, dec3,
        List.take]
      have e0 : b0 / 4 * 4 + (b0 % 4 * 16 + b1 / 16) / 16 = b0 := by omega
      have e1 : (b0 % 4 * 16 + b1 / 16) % 16 * 16 + b1 % 16 * 4 / 4 = b1 := by
        omega
      rw [e0, e1]
  | case4 b0 b1 b2 rest ih =>
      intro out
      have hb0 : b0 < 256 := hb b0 (by simp)
      have hb1 : b1 < 256 := hb b1 (by simp)
      have hb2 : b2 < 256 := hb b2 (by simp)
      have hrest : ∀ b ∈ rest, b < 256 := fun b hm => hb b (by simp [hm])
      have h0 : b0 / 4 < 64 := by omega
      have h1 : b0 % 4 * 16 + b1 / 16 < 64 := by omega
      have h2 : b1 % 16 * 4 + b2 / 64 < 64 := by omega
      have h3 : b2 % 64 < 64 := by omega
      obtain ⟨hne0, hc0, hp0⟩ := charAt_spec _ h0
      obtain ⟨hne1, hc1, hp1⟩ := charAt_spec _ h1
      obtain ⟨hne2, hc2, hp2⟩ := charAt_spec _ h2
      obtain ⟨hne3, hc3, hp3⟩ := charAt_spec _ h3
      have hflush :
          decode_group (b64charAt (b0 / 4)) (b64charAt (b0 % 4 * 16 + b1 / 16))
            (b64charAt (b1 % 16 * 4 + b2 / 64)) (b64charAt (b2 % 64))
            = .ok [b0, b1, b2] := by
        simp only [decode_group, hp0, hp1, hp2, hp3]
        exact congrArg Except.ok (dec3_enc4 b0 b1 b2 hb0 hb1 hb2)
      show decode_loop
        (b64charAt (b0 / 4) :: b64charAt (b0 % 4 * 16 + b1 / 16) ::
          b64charAt (b1 % 16 * 4 + b2 / 64) :: b64charAt (b2 % 64) ::
          base64_encode rest) [] out = .ok (out ++ b0 :: b1 :: b2 :: rest)
      rw [decode_loop_cons_small _ _ _ _ hc0 hne0 (by simp),
        decode_loop_cons_small _ _ _ _ hc1 hne1 (by simp),
        decode_loop_cons_small _ _ _ _ hc2 hne2 (by simp)]
      simp only [List.nil_append, List.singleton_append, List.cons_append]
      rw [decode_loop_flush _ _ _ _ _ _ hc3 hne3]
      simp only [hflush]
      rw [ih hrest (out ++ [b0, b1, b2])]
      simp

theorem clean_encode (bytes : List Nat) (hb : ∀ b ∈ bytes, b < 256) :
    clean_encoded (base64_encode bytes) = base64_encode bytes :=
  List.filter_eq_self.mpr (encode_chars bytes hb)

theorem clean_idem (s : List Nat) :
    clean_encoded (clean_encoded s) = clean_encoded s := by
  simp [clean_encoded, List.filter_filter]

theorem encode_ne_nil (bytes : List Nat) (h : bytes ≠ []) :
    base64_encode bytes ≠ [] := by
  have hl := encode_length bytes
  intro hn
  rw [hn] at hl
  simp at hl
  rcases bytes with _ | ⟨b, t⟩
  · exact h rfl
  · simp at hl
    omega

/-- The number of trailing characters satisfying a predicate (used to
state the padding property: how many `'='` end the encoder output). -/
def trailing_eq_count (l : List Nat) : Nat :=
  (l.reverse.takeWhile (fun c => c = 61)).length

theorem takeWhile_append_stop (p : Nat → Bool) (u v : List Nat)
    (h : ∃ x ∈ u, p x = false) : (u ++ v).takeWhile p = u.takeWhile p := by
  induction u with
  | nil => simp at h
  | cons a u ih =>
      cases hpa : p a with
      | false => simp [List.takeWhile_cons, hpa]
      | true =>
          simp only [List.cons_append, List.takeWhile_cons, hpa]
          rcases h with ⟨x, hx, hpx⟩
          rcases List.mem_cons.mp hx with rfl | hx'
          · rw [hpa] at hpx
            exact absurd hpx (by simp)
          · rw [ih ⟨x, hx', hpx⟩]

theorem trailing_append (u v : List Nat)
    (h : ∃ x ∈ v, x ≠ 61) :
    trailing_eq_count (u ++ v) = trailing_eq_count v := by
  rw [trailing_eq_count, trailing_eq_count, List.reverse_append,
    takeWhile_append_stop]
  rcases h with ⟨x, hx, hne⟩
  exact ⟨x, List.mem_reverse.mpr hx, by simp [hne]⟩

theorem encode_has_non_eq (bytes : List Nat) (h : bytes ≠ []) :
    ∃ x ∈ base64_encode bytes, x ≠ 61 := by
  rcases bytes with _ | ⟨b0, _ | ⟨b1, _ | ⟨b2, rest⟩⟩⟩
  · exact absurd rfl h
  · exact ⟨b64charAt (b0 / 4), by simp [base64_encode], charAt_ne61 _⟩
  · exact ⟨b64charAt (b0 / 4), by simp [base64_encode], charAt_ne61 _⟩
  · exact ⟨b64charAt (b0 / 4), by simp [base64_encode, enc4], charAt_ne61 _⟩

theorem encode_trailing (bytes : List Nat) :
    trailing_eq_count (base64_encode bytes) =
      (if bytes.length % 3 = 0 then 0
       else if bytes.length % 3 = 1 then 2 else 1) := by
  induction bytes using base64_encode.induct with
  | case1 => simp [base64_encode, trailing_eq_count]
  | case2 b0 =>
      have h1 := charAt_ne61 (b0 % 4 * 16)
      simp [base64_encode, trailing_eq_count, List.takeWhile, h1]
  | case3 b0 b1 =>
      have h2 := charAt_ne61 (b1 % 16 * 4)
      simp [base64_encode, trailing_eq_count, List.takeWhile, h2]
  | case4 b0 b1 b2 rest ih =>
      by_cases hr : rest = []
      · subst hr
        have h3 := charAt_ne61 (b2 % 64)
        simp [base64_encode, enc4, trailing_eq_count, List.takeWhile, h3]
      · have hstep : base64_encode (b0 :: b1 :: b2 :: rest)
            = (enc4 b0 b1 b2).map b64charAt ++ base64_encode rest := rfl
        rw [hstep, trailing_append _ _ (encode_has_non_eq rest hr), ih]
        have hm : (b0 :: b1 :: b2 :: rest).length % 3 = rest.length % 3 := by
          simp [List.length_cons]
          omega
        rw [hm]

/-! ### Claim theorems for the Base64 transform -/

/-- C2: for every byte sequence, decoding the encoding returns exactly the
original bytes, and on empty input `base64_encode` returns the empty
string while `base64_decode` returns the empty byte vector. -/
theorem base64_roundtrip (bytes : List Nat) (hb : ∀ b ∈ bytes, b < 256) :
    base64_decode (base64_encode bytes) = .ok bytes ∧
    base64_encode [] = [] ∧ base64_decode [] = .ok [] := by
  refine ⟨?_, rfl, rfl⟩
  by_cases hB : bytes = []
  · subst hB
    rfl
  · rw [base64_decode, if_neg (encode_ne_nil bytes hB)]
    have hlen : ¬ ((clean_encoded (base64_encode bytes)).length % 4 ≠ 0) := by
      rw [clean_encode bytes hb, encode_length]
      omega
    rw [if_neg hlen, clean_encode bytes hb]
    simpa using decode_loop_encode bytes hb []

/-- Witness for C2 at the concrete input `[0, 100, 255]`. -/
theorem base64_roundtrip_witness :
    base64_decode (base64_encode [0, 100, 255]) = .ok [0, 100, 255] :=
  (base64_roundtrip [0, 100, 255] (by decide)).1

/-- C3: the encoder output always has length a multiple of 4; it ends in
exactly two `'='` when the input length is 1 mod 3, exactly one when it is
2 mod 3, and none when it is 0 mod 3. -/
theorem base64_padding (bytes : List Nat) (hb : ∀ b ∈ bytes, b < 256) :
    (base64_encode bytes).length % 4 = 0 ∧
    (bytes.length % 3 = 1 → trailing_eq_count (base64_encode bytes) = 2) ∧
    (bytes.length % 3 = 2 → trailing_eq_count (base64_encode bytes) = 1) ∧
    (bytes.length % 3 = 0 → trailing_eq_count (base64_encode bytes) = 0) := by
  refine ⟨by rw [encode_length]; omega, ?_, ?_, ?_⟩ <;>
    intro h <;> rw [encode_trailing] <;> simp [h]

/-- Witness for C3 at inputs of length 1, 2 and 3. -/
theorem base64_padding_witness :
    trailing_eq_count (base64_encode [7]) = 2 ∧
    trailing_eq_count (base64_encode [7, 8]) = 1 ∧
    trailing_eq_count (base64_encode [7, 8, 9]) = 0 :=
  ⟨(base64_padding [7] (by decide)).2.1 (by decide),
   (base64_padding [7, 8] (by decide)).2.2.1 (by decide),
   (base64_padding [7, 8, 9] (by decide)).2.2.2 (by decide)⟩

theorem decode_eq_decode_clean (s : List Nat) :
    base64_decode s = base64_decode (clean_encoded s) := by
  by_cases hs : s = []
  · subst hs
    rfl
  · rw [base64_decode, if_neg hs]
    by_cases hc : clean_encoded s = []
    · rw [hc]
      simp [base64_decode, decode_loop, finish_tail]
    · rw [base64_decode, if_neg hc, clean_idem]

/-- C4: decoding works on the input stripped of every character outside
the alphabet plus `'='`; a stripped length that is not a multiple of 4 is
rejected with the format error `badLen`; and a group character that is not
found in the alphabet table makes the lookup step fail with the format
error `badChar` instead of producing a byte. -/
theorem base64_malformed_rejection (s : List Nat) (g0 g1 g2 g3 : Nat)
    (hlen : (clean_encoded s).length % 4 ≠ 0)
    (hg : b64pos g0 = none ∨ b64pos g1 = none ∨ b64pos g2 = none ∨
      b64pos g3 = none) :
    base64_decode s = .error .badLen ∧
    decode_group g0 g1 g2 g3 = .error .badChar ∧
    (∀ t, base64_decode t = base64_decode (clean_encoded t)) := by
  refine ⟨?_, ?_, decode_eq_decode_clean⟩
  · have hs : s ≠ [] := by
      intro hn
      rw [hn] at hlen
      exact hlen (by decide)
    rw [base64_decode, if_neg hs, if_pos hlen]
  · cases h0 : b64pos g0 <;> cases h1 : b64pos g1 <;>
      cases h2 : b64pos g2 <;> cases h3 : b64pos g3 <;>
      simp_all [decode_group]

/-- Witness for C4: the single letter `"A"` has stripped length 1, and
`'*' = 42` is not in the table. -/
theorem base64_malformed_rejection_witness :
    base64_decode [65] = .error .badLen ∧
    decode_group 42 65 65 65 = .error .badChar ∧
    (∀ t, base64_decode t = base64_decode (clean_encoded t)) :=
  base64_malformed_rejection [65] 42 65 65 65 (by decide)
    (Or.inl (by decide))

/-- C10: decoding stops at the first `'='`: well-formed groups followed by
`'='` and further alphabet characters decode without error to only the
bytes before the `'='` (concretely, `"QQ==QUFB"` yields just `[65]`), and
in the trailing-padding group a character that is not found in the
alphabet table is mapped to the value 0 rather than raising an error. -/
theorem base64_stops_at_first_padding (rest : List Nat) (c : Nat)
    (hrest : (clean_encoded rest).length % 4 = 0) (hc : b64pos c = none) :
    base64_decode (81 :: 81 :: 61 :: 61 :: rest) = .ok [65] ∧
    base64_decode [81, 81, 61, 61, 81, 85, 70, 66] = .ok [65] ∧
    b64posOr0 c = 0 := by
  refine ⟨?_, rfl, by rw [b64posOr0, hc]; rfl⟩
  have hcl : clean_encoded (81 :: 81 :: 61 :: 61 :: rest)
      = 81 :: 81 :: 61 :: 61 :: clean_encoded rest := by
    simp [clean_encoded, List.filter_cons, isB64Char, isalnumC]
  have hlen : ¬ ((clean_encoded (81 :: 81 :: 61 :: 61 :: rest)).length
      % 4 ≠ 0) := by
    rw [hcl]
    simp only [List.length_cons]
    omega
  rw [base64_decode, if_neg (by simp), if_neg hlen, hcl]
  rw [decode_loop_cons_small 81 _ _ _ (by decide) (by decide) (by simp),
    decode_loop_cons_small 81 _ _ _ (by decide) (by decide) (by simp),
    decode_loop_stop 61 _ _ _ (Or.inl rfl)]
  rfl

/-- Witness for C10 with no tail after the padding and the NUL filler
character. -/
theorem base64_stops_at_first_padding_witness :
    base64_decode [81, 81, 61, 61] = .ok [65] ∧ b64posOr0 0 = 0 := by
  have h := base64_stops_at_first_padding [] 0 (by decide) (by decide)
  exact ⟨h.1, h.2.2⟩

end XMLSerialize

/-! ## The value model

The serializable types of the library are the arithmetic types, strings,
and arbitrary nestings of pair / vector / list / set / map over them,
resolved at compile time by overload resolution.  `Ty` is the compile-time
shape, `Val` the runtime value of that shape:

* an arithmetic value is its width in bytes `w = sizeof(T)`, its
  signedness, and its raw bit pattern `bits < 2^(8*w)` (the binary codec
  reads and writes patterns, never interprets them);
* a string is its byte list;
* `set` and `map` values carry their elements in the container's
  iteration order (ascending element/key order); a `map` entry is a
  `pr key value`, matching both codecs, which write a key then a value.

Floating-point valued fields are outside the model; their binary codec
behaviour (raw fixed-width pattern copy) is the same as any other
scalar's, and their text behaviour is covered separately by the
`NumText.dyadic` attribute form of the XML model. -/

inductive Val where
  | scalar (w : Nat) (sg : Bool) (bits : Nat)
  | str (s : List Nat)
  | pr (a b : Val)
  | vec (xs : List Val)
  | lst (xs : List Val)
  | set (xs : List Val)
  | map (xs : List Val)

inductive Ty where
  | scalar (w : Nat) (sg : Bool)
  | str
  | pr (t1 t2 : Ty)
  | vec (t : Ty)
  | lst (t : Ty)
  | set (t : Ty)
  | map (tk tv : Ty)
deriving DecidableEq

/- `v` is a value of compile-time shape `t`; map entries are pairs of the
key and value shapes. -/
mutual
def hasTy : Ty → Val → Bool
  | .scalar w sg, .scalar w2 sg2 _ => w = w2 && sg = sg2
  | .str, .str _ => true
  | .pr t1 t2, .pr a b => hasTy t1 a && hasTy t2 b
  | .vec t, .vec xs => hasTyList t xs
  | .lst t, .lst xs => hasTyList t xs
  | .set t, .set xs => hasTyList t xs
  | .map tk tv, .map xs => hasTyList (.pr tk tv) xs
  | _, _ => false
def hasTyList : Ty → List Val → Bool
  | _, [] => true
  | t, v :: vs => hasTy t v && hasTyList t vs
end

def natCmp (a b : Nat) : Ordering :=
  if a < b then .lt else if b < a then .gt else .eq

def natListCmp : List Nat → List Nat → Ordering
  | [], [] => .eq
  | [], _ :: _ => .lt
  | _ :: _, [] => .gt
  | x :: xs, y :: ys => (natCmp x y).then (natListCmp xs ys)

def ctag : Val → Nat
  | .scalar .. => 0
  | .str _ => 1
  | .pr .. => 2
  | .vec _ => 3
  | .lst _ => 4
  | .set _ => 5
  | .map _ => 6

/- A total comparison on values, standing for the `operator<` that
`std::set` and `std::map` order their elements by (lexicographic on
strings, pairs and containers).  The claims compare set/map contents
only, never a specific order, so any fixed total order models the
container's "natural order"; on scalars this one compares bit patterns,
identifying values with their `Ty`-mates in iteration-order-isomorphic
fashion. -/
mutual
def vcmp : Val → Val → Ordering
  | .scalar w1 g1 b1, .scalar w2 g2 b2 =>
      (natCmp w1 w2).then ((natCmp (cond g1 1 0) (cond g2 1 0)).then
        (natCmp b1 b2))
  | .str s1, .str s2 => natListCmp s1 s2
  | .pr a1 b1, .pr a2 b2 => (vcmp a1 a2).then (vcmp b1 b2)
  | .vec xs, .vec ys => vcmpList xs ys
  | .lst xs, .lst ys => vcmpList xs ys
  | .set xs, .set ys => vcmpList xs ys
  | .map xs, .map ys => vcmpList xs ys
  | v, w => natCmp (ctag v) (ctag w)
def vcmpList : List Val → List Val → Ordering
  | [], [] => .eq
  | [], _ :: _ => .lt
  | _ :: _, [] => .gt
  | x :: xs, y :: ys => (vcmp x y).then (vcmpList xs ys)
end

def keyOf : Val → Val
  | .pr k _ => k
  | v => v

def isPairB : Val → Bool
  | .pr .. => true
  | _ => false

/-- Every element strictly below all later ones: the invariant of a
`std::set`'s element sequence. -/
def sortedValsB : List Val → Bool
  | [] => true
  | x :: xs => xs.all (fun y => vcmp x y = .lt) && sortedValsB xs

/-- Every entry's key strictly below all later keys: the invariant of a
`std::map`'s entry sequence. -/
def sortedKeysB : List Val → Bool
  | [] => true
  | x :: xs => xs.all (fun y => vcmp (keyOf x) (keyOf y) = .lt)
      && sortedKeysB xs

/- Well-formedness of a value as produced by the C++ runtime: scalar
widths are at least one byte and bit patterns fit the width, string bytes
are bytes, every length fits in a `size_t`, set elements are sorted, map
entries are pairs sorted by key. -/
mutual
def wfB : Val → Bool
  | .scalar w _ bits => 1 ≤ w && bits < 2 ^ (8 * w)
  | .str s => s.length < 2 ^ 64 && s.all (fun b => b < 256)
  | .pr a b => wfB a && wfB b
  | .vec xs => xs.length < 2 ^ 64 && wfListB xs
  | .lst xs => xs.length < 2 ^ 64 && wfListB xs
  | .set xs => xs.length < 2 ^ 64 && wfListB xs && sortedValsB xs
  | .map xs => xs.length < 2 ^ 64 && wfListB xs && xs.all isPairB
      && sortedKeysB xs
def wfListB : List Val → Bool
  | [] => true
  | v :: vs => wfB v && wfListB vs
end

/-- The default-constructed destination of shape `t` handed to the
deserializers (`T value;` before it gets overwritten; an arithmetic
destination is indeterminate in C++ but is never read before being
fully overwritten, so a zero pattern stands for it). -/
def defaultVal : Ty → Val
  | .scalar w sg => .scalar w sg 0
  | .str => .str []
  | .pr t1 t2 => .pr (defaultVal t1) (defaultVal t2)
  | .vec _ => .vec []
  | .lst _ => .lst []
  | .set _ => .set []
  | .map _ _ => .map []

/-- `data.insert(value)` on a `std::set` represented as its sorted
element sequence: walk to the ordered position, do nothing on an
already-present element. -/
def setInsert (x : Val) : List Val → List Val
  | [] => [x]
  | y :: ys =>
      match vcmp x y with
      | .lt => x :: y :: ys
      | .eq => y :: ys
      | .gt => y :: setInsert x ys

/-- `data[key] = value` on a `std::map` represented as its key-sorted
entry sequence: walk to the ordered position, overwrite the mapped value
of an already-present key. -/
def mapInsert (k v : Val) : List Val → List Val
  | [] => [.pr k v]
  | .pr k0 v0 :: rest =>
      match vcmp k k0 with
      | .lt => .pr k v :: .pr k0 v0 :: rest
      | .eq => .pr k0 v :: rest
      | .gt => .pr k0 v0 :: mapInsert k v rest
  | x :: rest => x :: mapInsert k v rest

namespace BinarySerialize

/-! ## Binary codec (BinarySerializer / BinaryDeserializer)

The byte stream is a `List Nat`.  A scalar of width `w` is written as its
`w` raw bytes (host order; modelled little-endian, the round trip does
not depend on the direction).  `size_t` is 8 bytes. -/

/-- The `w` bytes of the pattern `n` (`file.write((char*)&data, sizeof)`)
in host byte order. -/
def bytesLE : Nat → Nat → List Nat
  | 0, _ => []
  | w + 1, n => n % 256 :: bytesLE w (n / 256)

/-- The pattern stored in a byte list read back from the stream. -/
def natLE : List Nat → Nat
  | [] => 0
  | b :: bs => b + 256 * natLE bs

/-- `file.read(buf, w)`: take `w` bytes off the stream; a short stream is
a failed read (the C++ code never checks this, the destination is then
garbage — every theorem below runs on streams long enough). -/
def readBytes : Nat → List Nat → Option (List Nat × List Nat)
  | 0, input => some ([], input)
  | _ + 1, [] => none
  | w + 1, b :: input =>
      (readBytes w input).map (fun p => (b :: p.1, p.2))

/- `BinarySerializer::process`, all overloads: scalars are their raw
bytes; a string is its `size_t` length then its bytes; a pair is first
then second; vector/list/set/map write their `size_t` element count then
every element in iteration order (map: key then value per entry, which
is exactly its `pr` entry). -/
mutual
def bser : Val → List Nat
  | .scalar w _ bits => bytesLE w bits
  | .str s => bytesLE 8 s.length ++ s
  | .pr a b => bser a ++ bser b
  | .vec xs => bytesLE 8 xs.length ++ bserList xs
  | .lst xs => bytesLE 8 xs.length ++ bserList xs
  | .set xs => bytesLE 8 xs.length ++ bserList xs
  | .map xs => bytesLE 8 xs.length ++ bserList xs
def bserList : List Val → List Nat
  | [] => []
  | v :: vs => bser v ++ bserList vs
end

/-- The element loop of the vector/list deserializers: after
`clear(); resize(len)` every slot is a default-constructed element that
`process` then overwrites in order. -/
def readN (f : List Nat → Option (Val × List Nat)) :
    Nat → List Nat → Option (List Val × List Nat)
  | 0, input => some ([], input)
  | n + 1, input => do
      let (v, r) ← f input
      let (vs, rest) ← readN f n r
      some (v :: vs, rest)

/-- The element loop of the set deserializer: `T value; process(value);
data.insert(value);` repeated `len` times on the cleared set. -/
def readSetN (f : List Nat → Option (Val × List Nat)) :
    Nat → List Val → List Nat → Option (List Val × List Nat)
  | 0, acc, input => some (acc, input)
  | n + 1, acc, input => do
      let (v, r) ← f input
      readSetN f n (setInsert v acc) r

/-- The entry loop of the map deserializer: read a key, read a value,
`data[key] = value`, repeated `len` times on the cleared map. -/
def readMapN (fk fv : List Nat → Option (Val × List Nat)) :
    Nat → List Val → List Nat → Option (List Val × List Nat)
  | 0, acc, input => some (acc, input)
  | n + 1, acc, input => do
      let (k, r1) ← fk input
      let (v, r2) ← fv r1
      readMapN fk fv n (mapInsert k v acc) r2

/-- The two component destinations that `process(data.first);
process(data.second)` recurses into: the prior pair's own components
(shape mismatch with the static type cannot occur in C++; the fallback
default keeps the model total). -/
def priorComps (t1 t2 : Ty) : Val → Val × Val
  | .pr pa pb => (pa, pb)
  | _ => (defaultVal t1, defaultVal t2)

/-- `BinaryDeserializer::process`, all overloads, as a function of the
compile-time shape, the destination's prior value and the stream:
scalars overwrite the destination with the bytes read; strings read the
length then `resize` and overwrite; pairs recurse into the two prior
components; the containers clear the destination and repopulate it from
scratch (therefore the prior value is dropped on every path). -/
def bdes : Ty → Val → List Nat → Option (Val × List Nat)
  | .scalar w sg, _, input =>
      (readBytes w input).map (fun p => (Val.scalar w sg (natLE p.1), p.2))
  | .str, _, input => do
      let (lb, rest) ← readBytes 8 input
      let (sb, rest2) ← readBytes (natLE lb) rest
      some (.str sb, rest2)
  | .pr t1 t2, prior, input => do
      let (a, r1) ← bdes t1 (priorComps t1 t2 prior).1 input
      let (b, r2) ← bdes t2 (priorComps t1 t2 prior).2 r1
      some (.pr a b, r2)
  | .vec t, _, input => do
      let (lb, r) ← readBytes 8 input
      let (vs, rest) ← readN (bdes t (defaultVal t)) (natLE lb) r
      some (.vec vs, rest)
  | .lst t, _, input => do
      let (lb, r) ← readBytes 8 input
      let (vs, rest) ← readN (bdes t (defaultVal t)) (natLE lb) r
      some (.lst vs, rest)
  | .set t, _, input => do
      let (lb, r) ← readBytes 8 input
      let (vs, rest) ← readSetN (bdes t (defaultVal t)) (natLE lb) [] r
      some (.set vs, rest)
  | .map tk tv, _, input => do
      let (lb, r) ← readBytes 8 input
      let (vs, rest) ← readMapN (bdes tk (defaultVal tk))
        (bdes tv (defaultVal tv)) (natLE lb) [] r
      some (.map vs, rest)

end BinarySerialize

example : BinarySerialize.bdes (.vec (.scalar 1 true)) (.vec [.str []])
    (BinarySerialize.bser (.vec [.scalar 1 true 7, .scalar 1 true 250]) ++ [9])
    = some (.vec [.scalar 1 true 7, .scalar 1 true 250], [9]) := rfl

example : BinarySerialize.bdes (.map (.scalar 1 false) .str) (.map [])
    (BinarySerialize.bser (.map [.pr (.scalar 1 false 3) (.str [65]),
      .pr (.scalar 1 false 5) (.str [66, 67])]))
    = some (.map [.pr (.scalar 1 false 3) (.str [65]),
        .pr (.scalar 1 false 5) (.str [66, 67])], []) := rfl

/-! ## Order and size facts used by the round-trip proofs -/

theorem ordering_then_swap (a b : Ordering) :
    (a.then b).swap = a.swap.then b.swap := by
  cases a <;> cases b <;> rfl

theorem natCmp_swap (a b : Nat) : natCmp a b = (natCmp b a).swap := by
  unfold natCmp
  split_ifs <;> first | rfl | omega

theorem natListCmp_swap (xs : List Nat) :
    ∀ ys, natListCmp xs ys = (natListCmp ys xs).swap := by
  induction xs with
  | nil => intro ys; cases ys <;> rfl
  | cons x xs ih =>
      intro ys
      cases ys with
      | nil => rfl
      | cons y ys =>
          show (natCmp x y).then (natListCmp xs ys)
            = ((natCmp y x).then (natListCmp ys xs)).swap
          rw [ordering_then_swap, ih ys, natCmp_swap]

theorem val_sizeOf_pos (v : Val) : 0 < sizeOf v := by
  cases v <;> simp

theorem vcmpList_swap_of (xs ys : List Val)
    (H : ∀ x ∈ xs, ∀ w, vcmp x w = (vcmp w x).swap) :
    vcmpList xs ys = (vcmpList ys xs).swap := by
  induction xs generalizing ys with
  | nil => cases ys <;> rfl
  | cons x xs ih =>
      cases ys with
      | nil => rfl
      | cons y ys =>
          show (vcmp x y).then (vcmpList xs ys)
            = ((vcmp y x).then (vcmpList ys xs)).swap
          rw [ordering_then_swap, ih ys (fun z hz => H z (by simp [hz])),
            H x (by simp) y]

theorem vcmp_swap_aux :
    ∀ (n : Nat) (v : Val), sizeOf v ≤ n → ∀ w, vcmp v w = (vcmp w v).swap := by
  intro n
  induction n with
  | zero =>
      intro v hv
      have := val_sizeOf_pos v
      omega
  | succ n ih =>
      intro v hv w
      have hmem : ∀ (xs : List Val), sizeOf xs ≤ n + 1 →
          ∀ x ∈ xs, ∀ u, vcmp x u = (vcmp u x).swap := by
        intro xs hxs x hx u
        have h1 := List.sizeOf_lt_of_mem hx
        exact ih x (by omega) u
      cases v <;> cases w <;> try rfl
      case scalar.scalar w1 g1 b1 w2 g2 b2 =>
        show (natCmp w1 w2).then ((natCmp (cond g1 1 0) (cond g2 1 0)).then
            (natCmp b1 b2))
          = ((natCmp w2 w1).then ((natCmp (cond g2 1 0) (cond g1 1 0)).then
            (natCmp b2 b1))).swap
        rw [ordering_then_swap, ordering_then_swap, ← natCmp_swap,
          ← natCmp_swap, ← natCmp_swap]
      case str.str s1 s2 => exact natListCmp_swap s1 s2
      case pr.pr a1 b1 a2 b2 =>
        have ha : sizeOf a1 ≤ n := by
          have := val_sizeOf_pos b1
          simp at hv
          omega
        have hb : sizeOf b1 ≤ n := by
          have := val_sizeOf_pos a1
          simp at hv
          omega
        show (vcmp a1 a2).then (vcmp b1 b2)
          = ((vcmp a2 a1).then (vcmp b2 b1)).swap
        rw [ordering_then_swap, ih a1 ha a2, ih b1 hb b2]
      case vec.vec xs ys =>
        exact vcmpList_swap_of xs ys (hmem xs (by simp at hv; omega))
      case lst.lst xs ys =>
        exact vcmpList_swap_of xs ys (hmem xs (by simp at hv; omega))
      case set.set xs ys =>
        exact vcmpList_swap_of xs ys (hmem xs (by simp at hv; omega))
      case map.map xs ys =>
        exact vcmpList_swap_of xs ys (hmem xs (by simp at hv; omega))

theorem vcmp_swap (v w : Val) : vcmp v w = (vcmp w v).swap :=
  vcmp_swap_aux (sizeOf v) v (Nat.le_refl _) w

theorem vcmp_lt_gt {v w : Val} (h : vcmp v w = .lt) : vcmp w v = .gt := by
  have hs := vcmp_swap w v
  rw [h] at hs
  exact hs

namespace BinarySerialize

theorem bytesLE_length (w : Nat) : ∀ n, (bytesLE w n).length = w := by
  induction w with
  | zero => intro n; rfl
  | succ w ih => intro n; simp [bytesLE, ih]

theorem natLE_bytesLE (w : Nat) : ∀ n, natLE (bytesLE w n) = n % 256 ^ w := by
  induction w with
  | zero => intro n; simp [bytesLE, natLE, Nat.mod_one]
  | succ w ih =>
      intro n
      show n % 256 + 256 * natLE (bytesLE w (n / 256)) = n % 256 ^ (w + 1)
      rw [ih, pow_succ', Nat.mod_mul]

theorem readBytes_append (bs : List Nat) :
    ∀ rest, readBytes bs.length (bs ++ rest) = some (bs, rest) := by
  induction bs with
  | nil => intro rest; rfl
  | cons b bs ih =>
      intro rest
      show (readBytes bs.length (bs ++ rest)).map _ = _
      rw [ih rest]
      rfl

theorem setInsert_append (x : Val) :
    ∀ acc, (∀ y ∈ acc, vcmp y x = .lt) → setInsert x acc = acc ++ [x] := by
  intro acc
  induction acc with
  | nil => intro _; rfl
  | cons y ys ih =>
      intro h
      have hy : vcmp x y = .gt := vcmp_lt_gt (h y (by simp))
      show (match vcmp x y with
        | .lt => x :: y :: ys
        | .eq => y :: ys
        | .gt => y :: setInsert x ys) = y :: ys ++ [x]
      rw [hy, ih (fun z hz => h z (by simp [hz]))]
      rfl

theorem mapInsert_append (k v : Val) :
    ∀ acc, (∀ e ∈ acc, vcmp (keyOf e) k = .lt) →
      mapInsert k v acc = acc ++ [.pr k v] := by
  intro acc
  induction acc with
  | nil => intro _; rfl
  | cons e es ih =>
      intro h
      have hrec := ih (fun z hz => h z (by simp [hz]))
      cases e with
      | pr k0 v0 =>
          have hk : vcmp k k0 = .gt := vcmp_lt_gt (h (.pr k0 v0) (by simp))
          show (match vcmp k k0 with
            | .lt => Val.pr k v :: Val.pr k0 v0 :: es
            | .eq => Val.pr k0 v :: es
            | .gt => Val.pr k0 v0 :: mapInsert k v es) = _
          rw [hk, hrec]
          rfl
      | scalar w sg b => exact congrArg (fun l => Val.scalar w sg b :: l) hrec
      | str s => exact congrArg (fun l => Val.str s :: l) hrec
      | vec xs => exact congrArg (fun l => Val.vec xs :: l) hrec
      | lst xs => exact congrArg (fun l => Val.lst xs :: l) hrec
      | set xs => exact congrArg (fun l => Val.set xs :: l) hrec
      | map xs => exact congrArg (fun l => Val.map xs :: l) hrec

end BinarySerialize

namespace BinarySerialize

/-- Round-trip property of one value under the binary codec: whatever the
destination's prior contents, deserializing at the value's own shape from
the serialized bytes (followed by anything) returns the value and leaves
the rest of the stream. -/
def BinRT (v : Val) : Prop :=
  ∀ t prior rest, hasTy t v = true → wfB v = true →
    bdes t prior (bser v ++ rest) = some (v, rest)

theorem readN_rt (t : Ty) (xs : List Val) (H : ∀ x ∈ xs, BinRT x)
    (hty : hasTyList t xs = true) (hwf : wfListB xs = true) :
    ∀ rest, readN (bdes t (defaultVal t)) xs.length (bserList xs ++ rest)
      = some (xs, rest) := by
  induction xs with
  | nil => intro rest; rfl
  | cons x xs ih =>
      intro rest
      have hty1 : hasTy t x = true ∧ hasTyList t xs = true := by
        have h := hty
        rw [hasTyList] at h
        exact ⟨(Bool.and_eq_true _ _ |>.mp h).1, (Bool.and_eq_true _ _ |>.mp h).2⟩
      have hwf1 : wfB x = true ∧ wfListB xs = true := by
        have h := hwf
        rw [wfListB] at h
        exact ⟨(Bool.and_eq_true _ _ |>.mp h).1, (Bool.and_eq_true _ _ |>.mp h).2⟩
      show readN (bdes t (defaultVal t)) (xs.length + 1)
        ((bser x ++ bserList xs) ++ rest) = some (x :: xs, rest)
      rw [List.append_assoc, readN]
      rw [H x (by simp) t (defaultVal t) (bserList xs ++ rest) hty1.1 hwf1.1]
      simp only [Option.bind_eq_bind, Option.some_bind]
      rw [ih (fun z hz => H z (by simp [hz])) hty1.2 hwf1.2 rest]
      rfl

end BinarySerialize

namespace BinarySerialize

theorem readSetN_rt (t : Ty) (xs : List Val) (H : ∀ x ∈ xs, BinRT x)
    (hty : hasTyList t xs = true) (hwf : wfListB xs = true)
    (hsorted : sortedValsB xs = true) :
    ∀ acc rest, (∀ y ∈ acc, ∀ x ∈ xs, vcmp y x = .lt) →
      readSetN (bdes t (defaultVal t)) xs.length acc (bserList xs ++ rest)
        = some (acc ++ xs, rest) := by
  induction xs with
  | nil =>
      intro acc rest _
      show readSetN (bdes t (defaultVal t)) 0 acc ([] ++ rest)
        = some (acc ++ [], rest)
      rw [List.nil_append, List.append_nil]
      rfl
  | cons x xs ih =>
      intro acc rest hacc
      have hty1 := Bool.and_eq_true _ _ |>.mp (by rw [hasTyList] at hty; exact hty)
      have hwf1 := Bool.and_eq_true _ _ |>.mp (by rw [wfListB] at hwf; exact hwf)
      have hs1 := Bool.and_eq_true _ _ |>.mp (by rw [sortedValsB] at hsorted; exact hsorted)
      have hxall : ∀ z ∈ xs, vcmp x z = .lt := by
        intro z hz
        have := List.all_eq_true.mp hs1.1 z hz
        exact of_decide_eq_true this
      show readSetN (bdes t (defaultVal t)) (xs.length + 1) acc
        ((bser x ++ bserList xs) ++ rest) = some (acc ++ x :: xs, rest)
      rw [List.append_assoc, readSetN]
      rw [H x (by simp) t (defaultVal t) (bserList xs ++ rest) hty1.1 hwf1.1]
      simp only [Option.bind_eq_bind, Option.some_bind]
      rw [setInsert_append x acc (fun y hy => hacc y hy x (by simp))]
      rw [ih (fun z hz => H z (by simp [hz])) hty1.2 hwf1.2 hs1.2
        (acc ++ [x]) rest ?later]
      · rw [List.append_assoc]
        rfl
      case later =>
        intro y hy z hz
        rcases List.mem_append.mp hy with hy' | hy'
        · exact hacc y hy' z (by simp [hz])
        · have : y = x := by simpa using hy'
          subst this
          exact hxall z hz

theorem readMapN_rt (tk tv : Ty) (xs : List Val)
    (H : ∀ e ∈ xs, ∀ k v, e = .pr k v → BinRT k ∧ BinRT v)
    (hty : hasTyList (.pr tk tv) xs = true) (hwf : wfListB xs = true)
    (hsorted : sortedKeysB xs = true) :
    ∀ acc rest, (∀ e ∈ acc, ∀ z ∈ xs, vcmp (keyOf e) (keyOf z) = .lt) →
      readMapN (bdes tk (defaultVal tk)) (bdes tv (defaultVal tv))
        xs.length acc (bserList xs ++ rest) = some (acc ++ xs, rest) := by
  induction xs with
  | nil =>
      intro acc rest _
      show readMapN (bdes tk (defaultVal tk)) (bdes tv (defaultVal tv))
        0 acc ([] ++ rest) = some (acc ++ [], rest)
      rw [List.nil_append, List.append_nil]
      rfl
  | cons e xs ih =>
      intro acc rest hacc
      have hty1 := Bool.and_eq_true _ _ |>.mp (by rw [hasTyList] at hty; exact hty)
      have hwf1 := Bool.and_eq_true _ _ |>.mp (by rw [wfListB] at hwf; exact hwf)
      have hs1 := Bool.and_eq_true _ _ |>.mp (by rw [sortedKeysB] at hsorted; exact hsorted)
      obtain ⟨k, v, rfl⟩ : ∃ k v, e = Val.pr k v := by
        cases e <;> first
          | exact ⟨_, _, rfl⟩
          | (have hx := hty1.1
             simp [hasTy] at hx)
      have htkv := Bool.and_eq_true _ _ |>.mp (by rw [hasTy] at hty1; exact hty1.1)
      have hwkv := Bool.and_eq_true _ _ |>.mp (by rw [wfB] at hwf1; exact hwf1.1)
      have hK := (H (.pr k v) (by simp) k v rfl).1
      have hV := (H (.pr k v) (by simp) k v rfl).2
      have hkall : ∀ z ∈ xs, vcmp k (keyOf z) = .lt := by
        intro z hz
        have := List.all_eq_true.mp hs1.1 z hz
        exact of_decide_eq_true this
      show readMapN (bdes tk (defaultVal tk)) (bdes tv (defaultVal tv))
        (xs.length + 1) acc (((bser k ++ bser v) ++ bserList xs) ++ rest)
        = some (acc ++ Val.pr k v :: xs, rest)
      rw [List.append_assoc, List.append_assoc, readMapN]
      rw [hK tk (defaultVal tk) (bser v ++ (bserList xs ++ rest)) htkv.1 hwkv.1]
      simp only [Option.bind_eq_bind, Option.some_bind]
      rw [hV tv (defaultVal tv) (bserList xs ++ rest) htkv.2 hwkv.2]
      simp only [Option.some_bind]
      rw [mapInsert_append k v acc (fun y hy => hacc y hy (.pr k v) (by simp))]
      rw [ih (fun z hz => H z (by simp [hz])) hty1.2 hwf1.2 hs1.2
        (acc ++ [Val.pr k v]) rest ?later2]
      · rw [List.append_assoc]
        rfl
      case later2 =>
        intro y hy z hz
        rcases List.mem_append.mp hy with hy' | hy'
        · exact hacc y hy' z (by simp [hz])
        · have : y = Val.pr k v := by simpa using hy'
          subst this
          exact hkall z hz

end BinarySerialize

namespace BinarySerialize

theorem binRT_aux : ∀ (n : Nat) (v : Val), sizeOf v ≤ n → BinRT v := by
  intro n
  induction n with
  | zero =>
      intro v hv
      have := val_sizeOf_pos v
      omega
  | succ n ih =>
      intro v hv t prior rest hty hwf
      have hmem : ∀ (xs : List Val), sizeOf xs ≤ n + 1 → ∀ x ∈ xs, BinRT x := by
        intro xs hxs x hx
        have h1 := List.sizeOf_lt_of_mem hx
        exact ih x (by omega)
      cases t <;> cases v <;> simp only [hasTy] at hty <;>
        try exact absurd hty (by decide)
      case scalar.scalar tw tsg w sg bits =>
        have h1 : tw = w ∧ tsg = sg := by
          simpa using hty
        obtain ⟨rfl, rfl⟩ := h1
        simp only [wfB, Bool.and_eq_true, decide_eq_true_eq] at hwf
        have hr := readBytes_append (bytesLE tw bits) rest
        rw [bytesLE_length] at hr
        show (readBytes tw (bytesLE tw bits ++ rest)).map _ = _
        rw [hr]
        simp only [Option.map_some']
        rw [natLE_bytesLE]
        have h256 : (256 : Nat) ^ tw = 2 ^ (8 * tw) := by
          rw [pow_mul]
          norm_num
        rw [h256, Nat.mod_eq_of_lt hwf.2]
      case str.str s =>
        simp only [wfB, Bool.and_eq_true, decide_eq_true_eq] at hwf
        show bdes .str prior ((bytesLE 8 s.length ++ s) ++ rest) = _
        rw [List.append_assoc, bdes]
        have hr := readBytes_append (bytesLE 8 s.length) (s ++ rest)
        rw [bytesLE_length] at hr
        rw [hr]
        simp only [Option.bind_eq_bind, Option.some_bind]
        rw [natLE_bytesLE]
        have h256 : (256 : Nat) ^ 8 = 2 ^ 64 := by decide
        rw [h256, Nat.mod_eq_of_lt hwf.1, readBytes_append s rest]
        rfl
      case pr.pr t1 t2 a b =>
        simp only [Bool.and_eq_true] at hty
        simp only [wfB, Bool.and_eq_true] at hwf
        have hpa := val_sizeOf_pos a
        have hpb := val_sizeOf_pos b
        have hsa : sizeOf a ≤ n := by
          simp only [Val.pr.sizeOf_spec] at hv
          omega
        have hsb : sizeOf b ≤ n := by
          simp only [Val.pr.sizeOf_spec] at hv
          omega
        show bdes (.pr t1 t2) prior ((bser a ++ bser b) ++ rest) = _
        rw [List.append_assoc, bdes]
        rw [ih a hsa t1 _ (bser b ++ rest) hty.1 hwf.1]
        simp only [Option.bind_eq_bind, Option.some_bind]
        rw [ih b hsb t2 _ rest hty.2 hwf.2]
        rfl
      case vec.vec t xs =>
        simp only [wfB, Bool.and_eq_true, decide_eq_true_eq] at hwf
        have hxs : sizeOf xs ≤ n + 1 := by
          simp only [Val.vec.sizeOf_spec] at hv
          omega
        show bdes (.vec t) prior ((bytesLE 8 xs.length ++ bserList xs) ++ rest) = _
        rw [List.append_assoc, bdes]
        have hr := readBytes_append (bytesLE 8 xs.length) (bserList xs ++ rest)
        rw [bytesLE_length] at hr
        rw [hr]
        simp only [Option.bind_eq_bind, Option.some_bind]
        rw [natLE_bytesLE]
        have h256 : (256 : Nat) ^ 8 = 2 ^ 64 := by decide
        rw [h256, Nat.mod_eq_of_lt hwf.1]
        rw [readN_rt t xs (hmem xs hxs) hty hwf.2 rest]
        rfl
      case lst.lst t xs =>
        simp only [wfB, Bool.and_eq_true, decide_eq_true_eq] at hwf
        have hxs : sizeOf xs ≤ n + 1 := by
          simp only [Val.lst.sizeOf_spec] at hv
          omega
        show bdes (.lst t) prior ((bytesLE 8 xs.length ++ bserList xs) ++ rest) = _
        rw [List.append_assoc, bdes]
        have hr := readBytes_append (bytesLE 8 xs.length) (bserList xs ++ rest)
        rw [bytesLE_length] at hr
        rw [hr]
        simp only [Option.bind_eq_bind, Option.some_bind]
        rw [natLE_bytesLE]
        have h256 : (256 : Nat) ^ 8 = 2 ^ 64 := by decide
        rw [h256, Nat.mod_eq_of_lt hwf.1]
        rw [readN_rt t xs (hmem xs hxs) hty hwf.2 rest]
        rfl
      case set.set t xs =>
        simp only [wfB, Bool.and_eq_true, decide_eq_true_eq] at hwf
        obtain ⟨⟨hlen, hwfl⟩, hsort⟩ := hwf
        have hxs : sizeOf xs ≤ n + 1 := by
          simp only [Val.set.sizeOf_spec] at hv
          omega
        show bdes (.set t) prior ((bytesLE 8 xs.length ++ bserList xs) ++ rest) = _
        rw [List.append_assoc, bdes]
        have hr := readBytes_append (bytesLE 8 xs.length) (bserList xs ++ rest)
        rw [bytesLE_length] at hr
        rw [hr]
        simp only [Option.bind_eq_bind, Option.some_bind]
        rw [natLE_bytesLE]
        have h256 : (256 : Nat) ^ 8 = 2 ^ 64 := by decide
        rw [h256, Nat.mod_eq_of_lt hlen]
        rw [readSetN_rt t xs (hmem xs hxs) hty hwfl hsort [] rest
          (by intro y hy; simp at hy)]
        rfl
      case map.map tk tv xs =>
        simp only [wfB, Bool.and_eq_true, decide_eq_true_eq] at hwf
        obtain ⟨⟨⟨hlen, hwfl⟩, hpairs⟩, hsort⟩ := hwf
        have hxs : sizeOf xs ≤ n + 1 := by
          simp only [Val.map.sizeOf_spec] at hv
          omega
        have hcomp : ∀ e ∈ xs, ∀ k v, e = Val.pr k v → BinRT k ∧ BinRT v := by
          intro e he k v hkv
          subst hkv
          have h1 := List.sizeOf_lt_of_mem he
          have h2 := val_sizeOf_pos k
          have h3 := val_sizeOf_pos v
          simp only [Val.pr.sizeOf_spec] at h1
          exact ⟨ih k (by omega), ih v (by omega)⟩
        show bdes (.map tk tv) prior ((bytesLE 8 xs.length ++ bserList xs) ++ rest) = _
        rw [List.append_assoc, bdes]
        have hr := readBytes_append (bytesLE 8 xs.length) (bserList xs ++ rest)
        rw [bytesLE_length] at hr
        rw [hr]
        simp only [Option.bind_eq_bind, Option.some_bind]
        rw [natLE_bytesLE]
        have h256 : (256 : Nat) ^ 8 = 2 ^ 64 := by decide
        rw [h256, Nat.mod_eq_of_lt hlen]
        rw [readMapN_rt tk tv xs hcomp hty hwfl hsort [] rest
          (by intro y hy; simp at hy)]
        rfl

/-- Every well-typed, well-formed value round-trips under the binary
codec, for any prior destination contents and any following stream. -/
theorem binRT_all (v : Val) : BinRT v :=
  binRT_aux (sizeOf v) v (Nat.le_refl _)

end BinarySerialize

namespace BinarySerialize

theorem bdes_prior_indep :
    ∀ (t : Ty) (p1 p2 : Val) (input : List Nat),
      bdes t p1 input = bdes t p2 input := by
  intro t
  induction t with
  | scalar w sg => intro p1 p2 input; rfl
  | str => intro p1 p2 input; rfl
  | pr t1 t2 ih1 ih2 =>
      intro p1 p2 input
      rw [bdes, bdes,
        ih1 (priorComps t1 t2 p1).1 (priorComps t1 t2 p2).1 input]
      cases hb : bdes t1 (priorComps t1 t2 p2).1 input with
      | none => rfl
      | some p =>
          obtain ⟨a, r1⟩ := p
          simp only [Option.bind_eq_bind, Option.some_bind]
          rw [ih2 (priorComps t1 t2 p1).2 (priorComps t1 t2 p2).2 r1]
  | vec t ih => intro p1 p2 input; rfl
  | lst t ih => intro p1 p2 input; rfl
  | set t ih => intro p1 p2 input; rfl
  | map tk tv ih1 ih2 => intro p1 p2 input; rfl

theorem readN_length (f : List Nat → Option (Val × List Nat)) :
    ∀ (n : Nat) (input : List Nat) (vs : List Val) (rest : List Nat),
      readN f n input = some (vs, rest) → vs.length = n := by
  intro n
  induction n with
  | zero =>
      intro input vs rest h
      rw [readN] at h
      cases h
      rfl
  | succ n ih =>
      intro input vs rest h
      rw [readN] at h
      cases hf : f input with
      | none => rw [hf] at h; cases h
      | some p =>
          obtain ⟨v, r⟩ := p
          rw [hf] at h
          simp only [Option.bind_eq_bind, Option.some_bind] at h
          cases hr : readN f n r with
          | none => rw [hr] at h; cases h
          | some q =>
              obtain ⟨vs2, rest2⟩ := q
              rw [hr] at h
              simp only [Option.some_bind] at h
              cases h
              simp [ih r vs2 _ hr]

/-- Deserializing a vector from any stream: the destination receives
exactly the number of elements announced by the 8-byte count prefix. -/
theorem bdes_vec_count (t : Ty) (prior : Val) (input : List Nat)
    (v : Val) (rest : List Nat) (h : bdes (.vec t) prior input = some (v, rest)) :
    ∃ lb r, readBytes 8 input = some (lb, r) ∧
      ∃ vs, v = .vec vs ∧ vs.length = natLE lb := by
  rw [bdes] at h
  cases hb : readBytes 8 input with
  | none => rw [hb] at h; cases h
  | some p =>
      obtain ⟨lb, r⟩ := p
      rw [hb] at h
      simp only [Option.bind_eq_bind, Option.some_bind] at h
      cases hn : readN (bdes t (defaultVal t)) (natLE lb) r with
      | none => rw [hn] at h; cases h
      | some q =>
          obtain ⟨vs, rest2⟩ := q
          rw [hn] at h
          simp only [Option.some_bind] at h
          cases h
          exact ⟨lb, r, rfl, vs, rfl, readN_length _ _ _ _ _ hn⟩

end BinarySerialize

/-! ## Errors, undefined behaviour, and the byte-stream target

`Err` tags the `MyErr` exceptions by the design's error kinds; `DRes` is
the outcome of an operation: a result, a thrown error, or undefined
behaviour (`ub`, e.g. a null-pointer dereference), which no `catch` can
observe.  `FileSys` models the out-of-scope byte-stream sink/source at
its interface: a readable target is a byte list; `badWrite` marks targets
that cannot be opened for writing (`fstream::open` then fails). -/

inductive Err where
  | io
  | structural
  | format
deriving DecidableEq

inductive DRes (α : Type) where
  | ok (a : α)
  | err (e : Err)
  | ub

structure FileSys where
  files : String → Option (List Nat)
  badWrite : String → Bool

namespace BinarySerialize

/-- `BinarySerialize::serialize`: construct a `BinarySerializer` (open
the target with `trunc`, without checking that the open succeeded),
`process` the value, close on destruction.  On a target that cannot be
opened, every write is silently ignored and no error is raised. -/
def serialize (fs : FileSys) (v : Val) (file_name : String) : FileSys :=
  if fs.badWrite file_name then fs
  else { fs with
    files := fun n => if n = file_name then some (bser v) else fs.files n }

/-- `BinarySerialize::deserialize`: construct a `BinaryDeserializer`
(open the target for reading, throwing `MyErr` if that fails), then
`process` the value.  A stream shorter than the expected shape is read
past its end — undefined contents, modelled `ub`. -/
def deserialize (t : Ty) (fs : FileSys) (file_name : String) : DRes Val :=
  match fs.files file_name with
  | none => .err .io
  | some bytes =>
      match bdes t (defaultVal t) bytes with
      | some (v, _) => .ok v
      | none => .ub

end BinarySerialize

namespace XMLSerialize

/-! ## XML document model (XMLSerializer / XMLDeserializer)

The tree-document library (tinyxml2) is an out-of-scope external
collaborator; per the design it supplies named elements, child append,
a single string attribute ("val"), first-child and next-sibling lookup
by tag name, and document print/parse.  The codecs only ever create the
thirteen element names below, so tags are an enumeration.

The "val" attribute's text is modelled semantically:
* `int n` stands for the decimal text of the integer `n` (written by the
  integral `SetAttribute` overloads, including every container length);
* `dyadic m k` stands for the `%.17g` text of the finite double value
  `m / 2^k` (written by the floating `SetAttribute` overloads; 17
  significant digits parse back to exactly the same double);
* `str s` stands for the literal text `s` (written by the string
  overload).
Reading a numeric attribute into a string destination, or a string
attribute into a numeric one, never occurs in the claims and is marked
as outside the modelled domain (`ub`). -/

inductive XTag where
  | serialization
  | field
  | pair
  | first
  | second
  | vector
  | list
  | set
  | map
  | length
  | item
  | key
  | value
deriving DecidableEq

inductive AttrV where
  | int (n : Int)
  | dyadic (m : Int) (k : Nat)
  | str (s : List Nat)

inductive XElem where
  | mk (tag : XTag) (attr : Option AttrV) (children : List XElem)

def tagOf : XElem → XTag
  | .mk t _ _ => t

def attrOf : XElem → Option AttrV
  | .mk _ a _ => a

def childrenOf : XElem → List XElem
  | .mk _ _ c => c

/-- `pos->FirstChildElement(name)`. -/
def firstChild (tag : XTag) (e : XElem) : Option XElem :=
  (childrenOf e).find? (fun c => tagOf c = tag)

/-- The chain `FirstChildElement(name)`, `NextSiblingElement(name)`, …:
the children with the given tag, in document order. -/
def childrenTagged (tag : XTag) (e : XElem) : List XElem :=
  (childrenOf e).filter (fun c => tagOf c = tag)

def appendChild (e c : XElem) : XElem :=
  match e with
  | .mk t a cs => .mk t a (cs ++ [c])

def setAttr (e : XElem) (a : AttrV) : XElem :=
  match e with
  | .mk t _ cs => .mk t (some a) cs

/-- The signed value a typed C++ variable holds, from its width,
signedness, and bit pattern: what the integral `SetAttribute` overload
prints. -/
def interpScalar (w : Nat) (sg : Bool) (bits : Nat) : Int :=
  if sg ∧ 2 ^ (8 * w - 1) ≤ bits then (bits : Int) - 2 ^ (8 * w) else bits

/-- Floor of the base-2 logarithm, by fuel (the fuel `n` is enough for
the argument `n`); kernel-reducible, unlike `Nat.log2`. -/
def log2fuel : Nat → Nat → Nat
  | 0, _ => 0
  | fuel + 1, n => if 2 ≤ n then log2fuel fuel (n / 2) + 1 else 0

def nlog2 (n : Nat) : Nat := log2fuel n n

/-- The IEEE-754 double nearest to the integer `n` (round to nearest,
ties to even, 53-bit significand): the value `istringstream >> double`
yields on the exact decimal text of `n`. -/
def roundDouble (n : Int) : Int :=
  let a := n.natAbs
  if a ≤ 2 ^ 53 then n
  else
    let k := nlog2 a - 52
    let q := a / 2 ^ k
    let r := a % 2 ^ k
    let half := 2 ^ (k - 1)
    let q2 := if half < r ∨ (r = half ∧ q % 2 = 1) then q + 1 else q
    if n < 0 then -(q2 * 2 ^ k : Nat) else (q2 * 2 ^ k : Nat)

/-- Truncation toward zero of `m / 2^k`: what `static_cast<T>(double)`
does to the fractional part for an integral `T`. -/
def truncDyadic (m : Int) (k : Nat) : Int :=
  if 0 ≤ m then ((m.toNat / 2 ^ k : Nat) : Int)
  else -((((-m).toNat / 2 ^ k : Nat)) : Int)

/-- `static_cast<T>(double)` for the integral type of width `w` and
signedness `sg`, on the already-truncated value `d`: the bit pattern
when `d` is representable in `T`, undefined behaviour otherwise. -/
def castScalar (w : Nat) (sg : Bool) (d : Int) : Option Nat :=
  if sg then
    if -(2 ^ (8 * w - 1) : Int) ≤ d ∧ d < 2 ^ (8 * w - 1) then
      some ((d % (2 ^ (8 * w) : Int)).toNat)
    else none
  else
    if 0 ≤ d ∧ d < (2 ^ (8 * w) : Int) then some d.toNat else none

example : roundDouble (2 ^ 53 + 1) = 2 ^ 53 := by decide
example : roundDouble (2 ^ 53 + 3) = 2 ^ 53 + 4 := by decide
example : truncDyadic 3 1 = 1 := by decide

/-- `process(data.size(), len_ele)`: the arithmetic overload applied to
the `size_t` element count sets the "val" attribute of the fresh
`<length>` element to the count's decimal text. -/
def lengthElem (len : Nat) : XElem :=
  .mk .length (some (.int (interpScalar 8 false len))) []

/- `XMLSerializer::process(data, pos)`, all overloads: a scalar or a
string sets the "val" attribute on `pos`; a pair appends
`<pair><first>…</first><second>…</second></pair>`; vector/list/set
append their tag with a `<length val=count>` child followed by one
`<item>` per element; a map appends `<map>` with `<length>` and one
`<item><key>…</key><value>…</value></item>` per entry (an entry is a
`pr`; the non-pair fallback cannot occur for a typed C++ map). -/
mutual
def xmlAdd : Val → XElem → XElem
  | .scalar w sg bits, pos => setAttr pos (.int (interpScalar w sg bits))
  | .str s, pos => setAttr pos (.str s)
  | .pr a b, pos =>
      appendChild pos (.mk .pair none
        [xmlAdd a (.mk .first none []), xmlAdd b (.mk .second none [])])
  | .vec xs, pos =>
      appendChild pos (.mk .vector none
        (lengthElem xs.length :: xmlItems xs))
  | .lst xs, pos =>
      appendChild pos (.mk .list none
        (lengthElem xs.length :: xmlItems xs))
  | .set xs, pos =>
      appendChild pos (.mk .set none
        (lengthElem xs.length :: xmlItems xs))
  | .map xs, pos =>
      appendChild pos (.mk .map none
        (lengthElem xs.length :: xmlMapItems xs))
def xmlItems : List Val → List XElem
  | [] => []
  | v :: vs => xmlAdd v (.mk .item none []) :: xmlItems vs
def xmlMapItems : List Val → List XElem
  | [] => []
  | .pr k v :: es =>
      XElem.mk .item none
        [xmlAdd k (.mk .key none []), xmlAdd v (.mk .value none [])]
        :: xmlMapItems es
  | _ :: es => XElem.mk .item none [] :: xmlMapItems es
end

def drBind {α β : Type} (x : DRes α) (f : α → DRes β) : DRes β :=
  match x with
  | .ok a => f a
  | .err e => .err e
  | .ub => .ub

/-- The item loop of the vector/list reads: walk every `<item>` sibling,
deserialize it into a default-constructed element, `push_back`. -/
def xmlGetItems (f : XElem → DRes Val) : List XElem → DRes (List Val)
  | [] => .ok []
  | e :: es =>
      drBind (f e) fun v =>
      drBind (xmlGetItems f es) fun vs => .ok (v :: vs)

/-- The item loop of the set read: deserialize each `<item>` and
`insert` it. -/
def xmlGetSet (f : XElem → DRes Val) : List XElem → List Val →
    DRes (List Val)
  | [], acc => .ok acc
  | e :: es, acc => drBind (f e) fun v => xmlGetSet f es (setInsert v acc)

/-- The item loop of the map read: find `<key>` and `<value>` under each
`<item>` (a missing one is dereferenced — undefined behaviour),
deserialize both, `data[key] = value`. -/
def xmlGetMap (fk fv : XElem → DRes Val) : List XElem → List Val →
    DRes (List Val)
  | [], acc => .ok acc
  | e :: es, acc =>
      match firstChild .key e with
      | none => .ub
      | some kE =>
          drBind (fk kE) fun k =>
          match firstChild .value e with
          | none => .ub
          | some vE =>
              drBind (fv vE) fun v => xmlGetMap fk fv es (mapInsert k v acc)

/-- The arithmetic overload of `XMLDeserializer::process(data, pos)`:
read the "val" attribute (dereferencing a missing one — undefined
behaviour), parse it through a `double`, cast to the destination type. -/
def xmlGetScalar (w : Nat) (sg : Bool) (pos : XElem) : DRes Val :=
  match attrOf pos with
  | none => .ub
  | some (.int n) =>
      match castScalar w sg (roundDouble n) with
      | some bits => .ok (.scalar w sg bits)
      | none => .ub
  | some (.dyadic m k) =>
      match castScalar w sg (truncDyadic m k) with
      | some bits => .ok (.scalar w sg bits)
      | none => .ub
  | some (.str _) => .ub

/-- `XMLDeserializer::process(data, pos)`, all overloads.  A missing
"val" attribute or a missing expected child element is dereferenced
without a check — undefined behaviour (`ub`), not a thrown error.  The
container reads parse the `<length>` value into a `size_t` and then
ignore it, walking the `<item>` chain instead. -/
def xmlGet : Ty → Val → XElem → DRes Val
  | .scalar w sg, _, pos => xmlGetScalar w sg pos
  | .str, _, pos =>
      match attrOf pos with
      | none => .ub
      | some (.str s) => .ok (.str s)
      | some _ => .ub
  | .pr t1 t2, prior, pos =>
      match firstChild .pair pos with
      | none => .ub
      | some pairE =>
          match firstChild .first pairE with
          | none => .ub
          | some firstE =>
              drBind (xmlGet t1 (BinarySerialize.priorComps t1 t2 prior).1
                  firstE) fun a =>
              match firstChild .second pairE with
              | none => .ub
              | some secondE =>
                  drBind (xmlGet t2 (BinarySerialize.priorComps t1 t2
                      prior).2 secondE) fun b => .ok (.pr a b)
  | .vec t, _, pos =>
      match firstChild .vector pos with
      | none => .ub
      | some vecE =>
          match firstChild .length vecE with
          | none => .ub
          | some lenE =>
              drBind (xmlGetScalar 8 false lenE) fun _ =>
              drBind (xmlGetItems (xmlGet t (defaultVal t))
                  (childrenTagged .item vecE)) fun vs => .ok (.vec vs)
  | .lst t, _, pos =>
      match firstChild .list pos with
      | none => .ub
      | some listE =>
          match firstChild .length listE with
          | none => .ub
          | some lenE =>
              drBind (xmlGetScalar 8 false lenE) fun _ =>
              drBind (xmlGetItems (xmlGet t (defaultVal t))
                  (childrenTagged .item listE)) fun vs => .ok (.lst vs)
  | .set t, _, pos =>
      match firstChild .set pos with
      | none => .ub
      | some setE =>
          match firstChild .length setE with
          | none => .ub
          | some lenE =>
              drBind (xmlGetScalar 8 false lenE) fun _ =>
              drBind (xmlGetSet (xmlGet t (defaultVal t))
                  (childrenTagged .item setE) []) fun vs => .ok (.set vs)
  | .map tk tv, _, pos =>
      match firstChild .map pos with
      | none => .ub
      | some mapE =>
          match firstChild .length mapE with
          | none => .ub
          | some lenE =>
              drBind (xmlGetScalar 8 false lenE) fun _ =>
              drBind (xmlGetMap (xmlGet tk (defaultVal tk))
                  (xmlGet tv (defaultVal tv))
                  (childrenTagged .item mapE) []) fun vs => .ok (.map vs)

end XMLSerialize

example : XMLSerialize.xmlGet (.pr (.scalar 4 true) .str)
    (defaultVal (.pr (.scalar 4 true) .str))
    (XMLSerialize.xmlAdd (.pr (.scalar 4 true (2^32 - 5)) (.str [65, 66]))
      (.mk .field none []))
    = .ok (.pr (.scalar 4 true (2^32 - 5)) (.str [65, 66])) := rfl

example : XMLSerialize.xmlGet (.map (.scalar 1 false) (.vec .str))
    (defaultVal (.map (.scalar 1 false) (.vec .str)))
    (XMLSerialize.xmlAdd
      (.map [.pr (.scalar 1 false 3) (.vec [.str [97]]),
        .pr (.scalar 1 false 7) (.vec [])])
      (.mk .field none []))
    = .ok (.map [.pr (.scalar 1 false 3) (.vec [.str [97]]),
        .pr (.scalar 1 false 7) (.vec [])]) := rfl

example : XMLSerialize.xmlGet (.scalar 8 true) (defaultVal (.scalar 8 true))
    (XMLSerialize.xmlAdd (.scalar 8 true (2 ^ 53 + 1)) (.mk .field none []))
    = .ok (.scalar 8 true (2 ^ 53)) := rfl

namespace XMLSerialize

/-! ## Read sessions and persisted documents -/

/-- `file.FirstChildElement("serialization")` over the parsed document's
top-level elements. -/
def findRoot (doc : List XElem) : Option XElem :=
  doc.find? (fun e => tagOf e = XTag.serialization)

/-- The `XMLDeserializer` constructor after loading: locate the root
`<serialization>` (throwing a structural error when absent), then the
first `<field>` child (throwing when absent); the session state is the
cursor, i.e. the chain of `<field>` children from the first on. -/
def initFields (doc : List XElem) : DRes (List XElem) :=
  match findRoot doc with
  | none => .err .structural
  | some root =>
      match childrenTagged .field root with
      | [] => .err .structural
      | fs => .ok fs

/-- One top-level `process(data)` call of `XMLDeserializer`: a null
cursor (more calls than stored `<field>` children) throws the structural
error `"Field not found."`; otherwise deserialize from the cursor
element and advance to the next `<field>` sibling. -/
def readField (t : Ty) (prior : Val) : List XElem → DRes (Val × List XElem)
  | [] => .err .structural
  | f :: rest => drBind (xmlGet t prior f) fun v => .ok (v, rest)

def runReadsAux : List Ty → List XElem → DRes (List Val)
  | [], _ => .ok []
  | t :: ts, fs =>
      drBind (readField t (defaultVal t) fs) fun p =>
      drBind (runReadsAux ts p.2) fun vs => .ok (p.1 :: vs)

/-- A whole read session: construct the reader on the document, then one
per-field `process` call per requested shape, in order. -/
def runReads (doc : List XElem) (ts : List Ty) : DRes (List Val) :=
  drBind (initFields doc) fun fs => runReadsAux ts fs

/-- The document one `serialize_xml` session builds: the constructor
creates the `<serialization>` root, the single top-level `process` call
appends one `<field>` child holding the value. -/
def docOf (v : Val) : List XElem :=
  [.mk .serialization none [xmlAdd v (.mk .field none [])]]

/-! ### Document text (tinyxml2 print / parse)

Modelled from the spec: `XMLPrinter`/`XMLDocument::Print`,
`XMLDocument::Parse`, `SaveFile` and `LoadFile` belong to the
out-of-scope tree-document library, whose contract (§6 of the design) is
to serialize a document to text and parse it back.  The text is modelled
as a simple byte encoding of the element tree with a proved
parse-of-print identity; `parseDocO` tolerates trailing bytes (the
binary mode appends the C-string NUL terminator to the printed text). -/

def unaryEnc (n : Nat) : List Nat := List.replicate n 1 ++ [0]

def parseUnary (input : List Nat) : Option (Nat × List Nat) :=
  match input.dropWhile (fun b => b = 1) with
  | 0 :: r => some ((input.takeWhile (fun b => b = 1)).length, r)
  | _ => none

def intEnc (n : Int) : List Nat :=
  (if n < 0 then 1 else 0) :: unaryEnc n.natAbs

def parseInt (input : List Nat) : Option (Int × List Nat) :=
  match input with
  | s :: r =>
      (parseUnary r).bind (fun p =>
        if s = 1 then some (-(p.1 : Int), p.2)
        else if s = 0 then some ((p.1 : Int), p.2) else none)
  | [] => none

def printAttr : Option AttrV → List Nat
  | none => [0]
  | some (.int n) => 1 :: intEnc n
  | some (.dyadic m k) => 2 :: (intEnc m ++ unaryEnc k)
  | some (.str s) => 3 :: (unaryEnc s.length ++ s)

def parseAttr (input : List Nat) : Option (Option AttrV × List Nat) :=
  match input with
  | 0 :: r => some (none, r)
  | 1 :: r => (parseInt r).map (fun p => (some (.int p.1), p.2))
  | 2 :: r =>
      (parseInt r).bind fun p =>
      (parseUnary p.2).map fun q => (some (.dyadic p.1 q.1), q.2)
  | 3 :: r =>
      (parseUnary r).bind fun p =>
      (BinarySerialize.readBytes p.1 p.2).map fun q => (some (.str q.1), q.2)
  | _ => none

def tagIdx : XTag → Nat
  | .serialization => 1
  | .field => 2
  | .pair => 3
  | .first => 4
  | .second => 5
  | .vector => 6
  | .list => 7
  | .set => 8
  | .map => 9
  | .length => 10
  | .item => 11
  | .key => 12
  | .value => 13

def tagOfIdx : Nat → Option XTag
  | 1 => some .serialization
  | 2 => some .field
  | 3 => some .pair
  | 4 => some .first
  | 5 => some .second
  | 6 => some .vector
  | 7 => some .list
  | 8 => some .set
  | 9 => some .map
  | 10 => some .length
  | 11 => some .item
  | 12 => some .key
  | 13 => some .value
  | _ => none

mutual
def printElem : XElem → List Nat
  | .mk t a cs =>
      tagIdx t :: (printAttr a ++ (unaryEnc cs.length ++ printList cs))
def printList : List XElem → List Nat
  | [] => []
  | e :: es => printElem e ++ printList es
end

mutual
def parseElem : Nat → List Nat → Option (XElem × List Nat)
  | 0, _ => none
  | fuel + 1, input =>
      match input with
      | [] => none
      | b :: rest =>
          match tagOfIdx b with
          | none => none
          | some t =>
              (parseAttr rest).bind fun pa =>
              (parseUnary pa.2).bind fun pn =>
              (parseElems fuel pn.1 pn.2).map fun pc =>
                (XElem.mk t pa.1 pc.1, pc.2)
termination_by fuel _ => (fuel, 0)
def parseElems : Nat → Nat → List Nat → Option (List XElem × List Nat)
  | _, 0, input => some ([], input)
  | fuel, n + 1, input =>
      (parseElem fuel input).bind fun pe =>
      (parseElems fuel n pe.2).map fun pr => (pe.1 :: pr.1, pr.2)
termination_by fuel n _ => (fuel, n + 1)
end

/- The height of an element tree: the fuel `parseElem` needs. -/
mutual
def heightE : XElem → Nat
  | .mk _ _ cs => heightL cs + 1
def heightL : List XElem → Nat
  | [] => 0
  | e :: es => max (heightE e) (heightL es)
end

/-- The printed text of the whole document (its top-level element list,
count-prefixed). -/
def printDoc (doc : List XElem) : List Nat :=
  unaryEnc doc.length ++ printList doc

/-- `XMLDocument::Parse` / `LoadFile` on a byte content: the top-level
element list, or `none` on malformed content. -/
def parseDocO (input : List Nat) : Option (List XElem) :=
  (parseUnary input).bind fun p =>
  (parseElems (input.length + 1) p.1 p.2).map fun q => q.1

end XMLSerialize

namespace XMLSerialize

/-! ## Top-level entry points (text and Base64 binary modes) -/

/-- `XMLSerialize::serialize_xml`: build the document, `process` the
value once, and save the printed text on destruction.  A target that
cannot be opened is silently ignored (`SaveFile`'s status is never
checked). -/
def serialize_xml (fs : FileSys) (v : Val) (file_name : String) : FileSys :=
  if fs.badWrite file_name then fs
  else { fs with
    files := fun n =>
      if n = file_name then some (printDoc (docOf v)) else fs.files n }

/-- `XMLSerialize::deserialize_xml` (text mode): `LoadFile` throws the
I/O error `"Failed to open target xml file."` both when the target
cannot be opened and when its content does not parse; then the reader
session reads one field. -/
def deserialize_xml (t : Ty) (fs : FileSys) (file_name : String) : DRes Val :=
  match fs.files file_name with
  | none => .err .io
  | some bytes =>
      match parseDocO bytes with
      | none => .err .io
      | some doc =>
          drBind (initFields doc) fun fields =>
          drBind (readField t (defaultVal t) fields) fun p => .ok p.1

/-- `XMLSerialize::serialize_xml_base64`: like `serialize_xml`, but the
destructor prints the document in memory, Base64-encodes the printed
C string (whose size includes the NUL terminator), and writes the
encoded text as the file's whole content. -/
def serialize_xml_base64 (fs : FileSys) (v : Val) (file_name : String) :
    FileSys :=
  if fs.badWrite file_name then fs
  else { fs with
    files := fun n =>
      if n = file_name then
        some (base64_encode (printDoc (docOf v) ++ [0]))
      else fs.files n }

/-- `XMLSerialize::deserialize_xml_base64`: open the target in binary
mode (throwing an I/O error when that fails), read its whole content,
Base64-decode it (a format error propagates to the caller), `Parse` the
decoded text with the parse status ignored, then run the reader
session. -/
def deserialize_xml_base64 (t : Ty) (fs : FileSys) (file_name : String) :
    DRes Val :=
  match fs.files file_name with
  | none => .err .io
  | some bytes =>
      match base64_decode bytes with
      | .error _ => .err .format
      | .ok decoded =>
          let doc := (parseDocO decoded).getD []
          drBind (initFields doc) fun fields =>
          drBind (readField t (defaultVal t) fields) fun p => .ok p.1

end XMLSerialize

namespace XMLSerialize

theorem unary_take (n : Nat) (rest : List Nat) :
    (unaryEnc n ++ rest).takeWhile (fun b => decide (b = 1))
      = List.replicate n 1 ∧
    (unaryEnc n ++ rest).dropWhile (fun b => decide (b = 1)) = 0 :: rest := by
  induction n with
  | zero => constructor <;> rfl
  | succ n ih =>
      have hstep : unaryEnc (n + 1) ++ rest = 1 :: (unaryEnc n ++ rest) := by
        simp [unaryEnc, List.replicate_succ]
      rw [hstep]
      constructor
      · rw [List.takeWhile_cons]
        simp only [List.replicate_succ]
        rw [ih.1]
        rfl
      · rw [List.dropWhile_cons]
        rw [ih.2]
        rfl

theorem parseUnary_enc (n : Nat) (rest : List Nat) :
    parseUnary (unaryEnc n ++ rest) = some (n, rest) := by
  rw [parseUnary, (unary_take n rest).2, (unary_take n rest).1]
  simp

theorem parseInt_enc (n : Int) (rest : List Nat) :
    parseInt (intEnc n ++ rest) = some (n, rest) := by
  rw [intEnc]
  by_cases hn : n < 0
  · simp only [hn, if_true]
    show parseInt (1 :: (unaryEnc n.natAbs ++ rest)) = some (n, rest)
    rw [parseInt, parseUnary_enc]
    simp only [Option.bind_eq_bind, Option.some_bind, if_pos rfl]
    have : -((n.natAbs : Nat) : Int) = n := by omega
    rw [this]
    simp
  · simp only [hn, if_false]
    show parseInt (0 :: (unaryEnc n.natAbs ++ rest)) = some (n, rest)
    rw [parseInt, parseUnary_enc]
    simp only [Option.bind_eq_bind, Option.some_bind]
    have h1 : ((0:Nat) = 1) = False := by simp
    have h0 : ((0:Nat) = 0) = True := by simp
    simp only [h1, h0, if_false, if_true]
    have : ((n.natAbs : Nat) : Int) = n := by omega
    rw [this]

theorem parseAttr_print (a : Option AttrV) (rest : List Nat) :
    parseAttr (printAttr a ++ rest) = some (a, rest) := by
  match a with
  | none => rfl
  | some (.int n) =>
      show parseAttr (1 :: (intEnc n ++ rest)) = some (some (.int n), rest)
      rw [parseAttr, parseInt_enc]
      rfl
  | some (.dyadic m k) =>
      show parseAttr (2 :: ((intEnc m ++ unaryEnc k) ++ rest))
        = some (some (.dyadic m k), rest)
      rw [parseAttr, List.append_assoc, parseInt_enc]
      simp only [Option.bind_eq_bind, Option.some_bind, parseUnary_enc]
      rfl
  | some (.str s) =>
      show parseAttr (3 :: ((unaryEnc s.length ++ s) ++ rest))
        = some (some (.str s), rest)
      rw [parseAttr, List.append_assoc, parseUnary_enc]
      simp only [Option.bind_eq_bind, Option.some_bind]
      rw [BinarySerialize.readBytes_append]
      rfl

theorem tagOfIdx_tagIdx (t : XTag) : tagOfIdx (tagIdx t) = some t := by
  cases t <;> rfl

theorem heightE_mem {c : XElem} {cs : List XElem} (h : c ∈ cs) :
    heightE c ≤ heightL cs := by
  induction cs with
  | nil => cases h
  | cons e es ih =>
      rcases List.mem_cons.mp h with rfl | h2
      · rw [heightL]
        exact Nat.le_max_left _ _
      · rw [heightL]
        exact le_trans (ih h2) (Nat.le_max_right _ _)

theorem parseElems_of (fuel : Nat) (es : List XElem)
    (H : ∀ c ∈ es, ∀ rest, parseElem fuel (printElem c ++ rest)
      = some (c, rest)) :
    ∀ rest, parseElems fuel es.length (printList es ++ rest)
      = some (es, rest) := by
  induction es with
  | nil =>
      intro rest
      show parseElems fuel 0 (printList [] ++ rest) = some ([], rest)
      rw [parseElems]
      rfl
  | cons e es ih =>
      intro rest
      show parseElems fuel (es.length + 1) ((printElem e ++ printList es) ++ rest)
        = some (e :: es, rest)
      rw [List.append_assoc, parseElems, H e (by simp)]
      simp only [Option.bind_eq_bind, Option.some_bind]
      rw [ih (fun c hc rest2 => H c (by simp [hc]) rest2)]
      rfl

theorem parseElem_print :
    ∀ (fuel : Nat) (e : XElem), heightE e ≤ fuel →
      ∀ rest, parseElem fuel (printElem e ++ rest) = some (e, rest) := by
  intro fuel
  induction fuel with
  | zero =>
      intro e he
      obtain ⟨t, a, cs⟩ := e
      rw [heightE] at he
      omega
  | succ fuel ih =>
      intro e he rest
      obtain ⟨t, a, cs⟩ := e
      rw [heightE] at he
      have hcs : ∀ c ∈ cs, heightE c ≤ fuel :=
        fun c hc => le_trans (heightE_mem hc) (by omega)
      show parseElem (fuel + 1)
        ((tagIdx t :: (printAttr a ++ (unaryEnc cs.length ++ printList cs)))
          ++ rest) = some (.mk t a cs, rest)
      rw [List.cons_append, parseElem, tagOfIdx_tagIdx]
      rw [List.append_assoc, parseAttr_print]
      simp only [Option.bind_eq_bind, Option.some_bind]
      rw [List.append_assoc, parseUnary_enc]
      simp only [Option.some_bind]
      rw [parseElems_of fuel cs (fun c hc => ih c (hcs c hc))]
      rfl

theorem printList_mem_le {c : XElem} {es : List XElem} (h : c ∈ es) :
    (printElem c).length ≤ (printList es).length := by
  induction es with
  | nil => cases h
  | cons e es ih =>
      rw [printList]
      simp only [List.length_append]
      rcases List.mem_cons.mp h with rfl | h2
      · omega
      · have := ih h2
        omega

theorem heightE_le_printLen :
    ∀ (n : Nat) (e : XElem), sizeOf e ≤ n →
      heightE e ≤ (printElem e).length := by
  intro n
  induction n with
  | zero =>
      intro e he
      obtain ⟨t, a, cs⟩ := e
      simp at he
  | succ n ih =>
      intro e he
      obtain ⟨t, a, cs⟩ := e
      rw [heightE, printElem]
      simp only [List.length_cons, List.length_append]
      have hsize : sizeOf cs ≤ n := by
        simp only [XElem.mk.sizeOf_spec] at he
        cases t <;> simp at he <;> omega
      have hL : ∀ (cs2 : List XElem), sizeOf cs2 ≤ n →
          heightL cs2 ≤ (printList cs2).length := by
        intro cs2
        induction cs2 with
        | nil =>
            intro _
            simp [heightL, printList]
        | cons c cs2 ihc =>
            intro hs
            rw [heightL, printList]
            simp only [List.length_append]
            have h1 : sizeOf c ≤ n := by
              simp only [List.cons.sizeOf_spec] at hs
              omega
            have h2 : sizeOf cs2 ≤ n := by
              simp only [List.cons.sizeOf_spec] at hs
              omega
            have hc := ih c h1
            have hcs2 := ihc h2
            exact max_le (by omega) (by omega)
      have := hL cs hsize
      omega

theorem parseDocO_printDoc (doc : List XElem) (trail : List Nat) :
    parseDocO (printDoc doc ++ trail) = some doc := by
  rw [printDoc, parseDocO, List.append_assoc, parseUnary_enc]
  simp only [Option.bind_eq_bind, Option.some_bind]
  rw [parseElems_of _ doc ?H]
  · rfl
  case H =>
    intro c hc rest
    apply parseElem_print
    have h1 := heightE_le_printLen (sizeOf c) c (Nat.le_refl _)
    have h2 := printList_mem_le hc
    simp only [List.length_append]
    omega

end XMLSerialize

namespace XMLSerialize

/- The extra condition the document codec needs for an exact round trip:
every scalar's mathematical value, and every container length, is at
most 2^53 in magnitude, so the double-precision parse in the read path
is exact.  (The binary codec needs no such condition — that asymmetry is
the subject of the precision-loss claims.) -/
mutual
def xmlSafe : Val → Bool
  | .scalar w sg bits => (interpScalar w sg bits).natAbs ≤ 2 ^ 53
  | .str _ => true
  | .pr a b => xmlSafe a && xmlSafe b
  | .vec xs => xs.length ≤ 2 ^ 53 && xmlSafeList xs
  | .lst xs => xs.length ≤ 2 ^ 53 && xmlSafeList xs
  | .set xs => xs.length ≤ 2 ^ 53 && xmlSafeList xs
  | .map xs => xs.length ≤ 2 ^ 53 && xmlSafeList xs
def xmlSafeList : List Val → Bool
  | [] => true
  | v :: vs => xmlSafe v && xmlSafeList vs
end

theorem xmlAdd_tag (v : Val) (pos : XElem) : tagOf (xmlAdd v pos) = tagOf pos := by
  obtain ⟨t, a, cs⟩ := pos
  cases v <;> rfl

theorem roundDouble_small (n : Int) (h : n.natAbs ≤ 2 ^ 53) :
    roundDouble n = n := by
  rw [roundDouble]
  simp only [h, if_pos]

theorem castScalar_interp (w : Nat) (sg : Bool) (bits : Nat) (hw : 1 ≤ w)
    (hb : bits < 2 ^ (8 * w)) :
    castScalar w sg (interpScalar w sg bits) = some bits := by
  have hsplit : ((2 : Int) ^ (8 * w)) = 2 ^ (8 * w - 1) * 2 := by
    rw [← pow_succ]
    congr 1
    omega
  have hbi : ((bits : Int)) < 2 ^ (8 * w) := by exact_mod_cast hb
  have hpos : (0 : Int) < 2 ^ (8 * w - 1) := by positivity
  cases sg with
  | false =>
      rw [interpScalar, castScalar]
      simp only [false_and, if_false, Bool.false_eq_true]
      rw [if_pos ⟨Int.ofNat_nonneg bits, hbi⟩]
      simp
  | true =>
      rw [interpScalar, castScalar]
      by_cases hhi : 2 ^ (8 * w - 1) ≤ bits
      · have hbi2 : ((2 : Int) ^ (8 * w - 1)) ≤ (bits : Int) := by
          exact_mod_cast hhi
        simp only [true_and, hhi, if_pos]
        have hcond : -((2 : Int) ^ (8 * w - 1)) ≤ (bits : Int) - 2 ^ (8 * w)
            ∧ (bits : Int) - 2 ^ (8 * w) < 2 ^ (8 * w - 1) := by omega
        rw [if_pos hcond]
        have hmod : ((bits : Int) - 2 ^ (8 * w)) % (2 ^ (8 * w) : Int)
            = (bits : Int) := by
          rw [Int.sub_emod, Int.emod_self, sub_zero,
            Int.emod_emod_of_dvd _ (dvd_refl _)]
          exact Int.emod_eq_of_lt (Int.ofNat_nonneg bits) hbi
        rw [hmod]
        simp
      · have hbi2 : (bits : Int) < (2 : Int) ^ (8 * w - 1) := by
          exact_mod_cast Nat.lt_of_not_le hhi
        simp only [true_and, hhi, if_false, Bool.false_eq_true]
        have hcond : -((2 : Int) ^ (8 * w - 1)) ≤ (bits : Int)
            ∧ (bits : Int) < 2 ^ (8 * w - 1) := by
          constructor
          · omega
          · exact hbi2
        rw [if_pos hcond]
        rw [Int.emod_eq_of_lt (Int.ofNat_nonneg bits) hbi]
        simp

end XMLSerialize

namespace XMLSerialize

/-- Round-trip property of one value under the document codec: reading
back at the value's own shape from the element the writer produced on a
fresh element of any tag, with any prior destination contents. -/
def XmlRT (v : Val) : Prop :=
  ∀ (t : Ty) (tg : XTag) (prior : Val),
    hasTy t v = true → wfB v = true → xmlSafe v = true →
      xmlGet t prior (xmlAdd v (.mk tg none [])) = .ok v

theorem interpScalar_unsigned (bits : Nat) (w : Nat) :
    interpScalar w false bits = (bits : Int) := by
  rw [interpScalar]
  simp

theorem xmlGetScalar_length (len : Nat) (hlen : len < 2 ^ 64)
    (hsafe : len ≤ 2 ^ 53) :
    xmlGetScalar 8 false (lengthElem len) = .ok (.scalar 8 false len) := by
  rw [lengthElem, xmlGetScalar]
  simp only [attrOf, interpScalar_unsigned]
  rw [roundDouble_small _ (by simpa using hsafe)]
  rw [castScalar]
  simp only [Bool.false_eq_true, if_false]
  rw [if_pos ⟨Int.ofNat_nonneg len, by exact_mod_cast hlen⟩]
  simp

theorem mem_xmlItems_tag (xs : List Val) :
    ∀ e ∈ xmlItems xs, tagOf e = XTag.item := by
  induction xs with
  | nil =>
      intro e he
      cases he
  | cons x xs ih =>
      intro e he
      rcases List.mem_cons.mp he with rfl | h2
      · rw [xmlAdd_tag]
        rfl
      · exact ih e h2

theorem mem_xmlMapItems_tag (xs : List Val) :
    ∀ e ∈ xmlMapItems xs, tagOf e = XTag.item := by
  induction xs with
  | nil =>
      intro e he
      cases he
  | cons x xs ih =>
      intro e he
      cases x <;>
        (rcases List.mem_cons.mp he with rfl | h2
         · rfl
         · exact ih e h2)

theorem filter_items (xs : List Val) :
    (xmlItems xs).filter (fun c => tagOf c = XTag.item) = xmlItems xs :=
  List.filter_eq_self.mpr
    (fun e he => by simp [mem_xmlItems_tag xs e he])

theorem filter_mapItems (xs : List Val) :
    (xmlMapItems xs).filter (fun c => tagOf c = XTag.item)
      = xmlMapItems xs :=
  List.filter_eq_self.mpr
    (fun e he => by simp [mem_xmlMapItems_tag xs e he])

theorem xmlGetItems_of (t : Ty) (xs : List Val) (H : ∀ x ∈ xs, XmlRT x)
    (hty : hasTyList t xs = true) (hwf : wfListB xs = true)
    (hsafe : xmlSafeList xs = true) :
    xmlGetItems (xmlGet t (defaultVal t)) (xmlItems xs) = .ok xs := by
  induction xs with
  | nil => rfl
  | cons x xs ih =>
      have hty1 := Bool.and_eq_true _ _ |>.mp (by rw [hasTyList] at hty; exact hty)
      have hwf1 := Bool.and_eq_true _ _ |>.mp (by rw [wfListB] at hwf; exact hwf)
      have hs1 := Bool.and_eq_true _ _ |>.mp (by rw [xmlSafeList] at hsafe; exact hsafe)
      show xmlGetItems _ (xmlAdd x (.mk .item none []) :: xmlItems xs) = _
      rw [xmlGetItems, H x (by simp) t .item (defaultVal t) hty1.1 hwf1.1 hs1.1]
      rw [drBind, ih (fun z hz => H z (by simp [hz])) hty1.2 hwf1.2 hs1.2]
      rfl

theorem xmlGetSet_of (t : Ty) (xs : List Val) (H : ∀ x ∈ xs, XmlRT x)
    (hty : hasTyList t xs = true) (hwf : wfListB xs = true)
    (hsafe : xmlSafeList xs = true) (hsorted : sortedValsB xs = true) :
    ∀ acc, (∀ y ∈ acc, ∀ x ∈ xs, vcmp y x = .lt) →
      xmlGetSet (xmlGet t (defaultVal t)) (xmlItems xs) acc
        = .ok (acc ++ xs) := by
  induction xs with
  | nil =>
      intro acc _
      show xmlGetSet _ [] acc = .ok (acc ++ [])
      rw [List.append_nil]
      rfl
  | cons x xs ih =>
      intro acc hacc
      have hty1 := Bool.and_eq_true _ _ |>.mp (by rw [hasTyList] at hty; exact hty)
      have hwf1 := Bool.and_eq_true _ _ |>.mp (by rw [wfListB] at hwf; exact hwf)
      have hs1 := Bool.and_eq_true _ _ |>.mp (by rw [xmlSafeList] at hsafe; exact hsafe)
      have hso1 := Bool.and_eq_true _ _ |>.mp (by rw [sortedValsB] at hsorted; exact hsorted)
      have hxall : ∀ z ∈ xs, vcmp x z = .lt := by
        intro z hz
        exact of_decide_eq_true (List.all_eq_true.mp hso1.1 z hz)
      show xmlGetSet _ (xmlAdd x (.mk .item none []) :: xmlItems xs) acc = _
      rw [xmlGetSet, H x (by simp) t .item (defaultVal t) hty1.1 hwf1.1 hs1.1]
      rw [drBind, BinarySerialize.setInsert_append x acc
        (fun y hy => hacc y hy x (by simp))]
      rw [ih (fun z hz => H z (by simp [hz])) hty1.2 hwf1.2 hs1.2 hso1.2
        (acc ++ [x]) ?hacc2]
      · rw [List.append_assoc]
        rfl
      case hacc2 =>
        intro y hy z hz
        rcases List.mem_append.mp hy with hy' | hy'
        · exact hacc y hy' z (by simp [hz])
        · have : y = x := by simpa using hy'
          subst this
          exact hxall z hz

theorem xmlGetMap_of (tk tv : Ty) (xs : List Val)
    (H : ∀ e ∈ xs, ∀ k v, e = Val.pr k v → XmlRT k ∧ XmlRT v)
    (hty : hasTyList (.pr tk tv) xs = true) (hwf : wfListB xs = true)
    (hsafe : xmlSafeList xs = true) (hsorted : sortedKeysB xs = true) :
    ∀ acc, (∀ e ∈ acc, ∀ z ∈ xs, vcmp (keyOf e) (keyOf z) = .lt) →
      xmlGetMap (xmlGet tk (defaultVal tk)) (xmlGet tv (defaultVal tv))
        (xmlMapItems xs) acc = .ok (acc ++ xs) := by
  induction xs with
  | nil =>
      intro acc _
      show xmlGetMap _ _ [] acc = .ok (acc ++ [])
      rw [List.append_nil]
      rfl
  | cons e xs ih =>
      intro acc hacc
      have hty1 := Bool.and_eq_true _ _ |>.mp (by rw [hasTyList] at hty; exact hty)
      have hwf1 := Bool.and_eq_true _ _ |>.mp (by rw [wfListB] at hwf; exact hwf)
      have hs1 := Bool.and_eq_true _ _ |>.mp (by rw [xmlSafeList] at hsafe; exact hsafe)
      have hso1 := Bool.and_eq_true _ _ |>.mp (by rw [sortedKeysB] at hsorted; exact hsorted)
      obtain ⟨k, v, rfl⟩ : ∃ k v, e = Val.pr k v := by
        cases e <;> first
          | exact ⟨_, _, rfl⟩
          | (have hx := hty1.1
             simp [hasTy] at hx)
      have htkv := Bool.and_eq_true _ _ |>.mp (by rw [hasTy] at hty1; exact hty1.1)
      have hwkv := Bool.and_eq_true _ _ |>.mp (by rw [wfB] at hwf1; exact hwf1.1)
      have hskv := Bool.and_eq_true _ _ |>.mp (by rw [xmlSafe] at hs1; exact hs1.1)
      have hkall : ∀ z ∈ xs, vcmp k (keyOf z) = .lt := by
        intro z hz
        exact of_decide_eq_true (List.all_eq_true.mp hso1.1 z hz)
      show xmlGetMap _ _ (XElem.mk .item none
        [xmlAdd k (.mk .key none []), xmlAdd v (.mk .value none [])]
        :: xmlMapItems xs) acc = _
      rw [xmlGetMap]
      have hfk : firstChild .key (XElem.mk .item none
          [xmlAdd k (.mk .key none []), xmlAdd v (.mk .value none [])])
          = some (xmlAdd k (.mk .key none [])) := by
        cases k <;> rfl
      have hfv : firstChild .value (XElem.mk .item none
          [xmlAdd k (.mk .key none []), xmlAdd v (.mk .value none [])])
          = some (xmlAdd v (.mk .value none [])) := by
        cases k <;> cases v <;> rfl
      simp only [hfk]
      rw [(H (.pr k v) (by simp) k v rfl).1 tk .key (defaultVal tk)
        htkv.1 hwkv.1 hskv.1]
      simp only [drBind, hfv]
      rw [(H (.pr k v) (by simp) k v rfl).2 tv .value
        (defaultVal tv) htkv.2 hwkv.2 hskv.2]
      simp only [drBind]
      rw [BinarySerialize.mapInsert_append k v acc
        (fun y hy => hacc y hy (.pr k v) (by simp))]
      rw [ih (fun z hz => H z (by simp [hz])) hty1.2 hwf1.2 hs1.2 hso1.2
        (acc ++ [Val.pr k v]) ?hacc3]
      · rw [List.append_assoc]
        rfl
      case hacc3 =>
        intro y hy z hz
        rcases List.mem_append.mp hy with hy' | hy'
        · exact hacc y hy' z (by simp [hz])
        · have : y = Val.pr k v := by simpa using hy'
          subst this
          exact hkall z hz

end XMLSerialize

namespace XMLSerialize

theorem xmlRT_aux : ∀ (n : Nat) (v : Val), sizeOf v ≤ n → XmlRT v := by
  intro n
  induction n with
  | zero =>
      intro v hv
      have := val_sizeOf_pos v
      omega
  | succ n ih =>
      intro v hv t tg prior hty hwf hsafe
      have hmem : ∀ (xs : List Val), sizeOf xs ≤ n + 1 → ∀ x ∈ xs, XmlRT x := by
        intro xs hxs x hx
        have h1 := List.sizeOf_lt_of_mem hx
        exact ih x (by omega)
      cases t <;> cases v <;> simp only [hasTy] at hty <;>
        try exact absurd hty (by decide)
      case scalar.scalar tw tsg w sg bits =>
        have h1 : tw = w ∧ tsg = sg := by simpa using hty
        obtain ⟨rfl, rfl⟩ := h1
        simp only [wfB, Bool.and_eq_true, decide_eq_true_eq] at hwf
        simp only [xmlSafe, decide_eq_true_eq] at hsafe
        show xmlGetScalar tw tsg
          (.mk tg (some (.int (interpScalar tw tsg bits))) [])
          = .ok (.scalar tw tsg bits)
        rw [xmlGetScalar]
        simp only [attrOf]
        rw [roundDouble_small _ hsafe, castScalar_interp tw tsg bits hwf.1 hwf.2]
      case str.str s =>
        rfl
      case pr.pr t1 t2 a b =>
        simp only [Bool.and_eq_true] at hty
        simp only [wfB, Bool.and_eq_true] at hwf
        simp only [xmlSafe, Bool.and_eq_true] at hsafe
        have hpa := val_sizeOf_pos a
        have hpb := val_sizeOf_pos b
        have hsa : sizeOf a ≤ n := by
          simp only [Val.pr.sizeOf_spec] at hv
          omega
        have hsb : sizeOf b ≤ n := by
          simp only [Val.pr.sizeOf_spec] at hv
          omega
        have hfp : firstChild .pair (XElem.mk tg none [XElem.mk .pair none
            [xmlAdd a (.mk .first none []), xmlAdd b (.mk .second none [])]])
            = some (XElem.mk .pair none
            [xmlAdd a (.mk .first none []), xmlAdd b (.mk .second none [])]) :=
          rfl
        have hff : firstChild .first (XElem.mk .pair none
            [xmlAdd a (.mk .first none []), xmlAdd b (.mk .second none [])])
            = some (xmlAdd a (.mk .first none [])) := by
          cases a <;> rfl
        have hfs : firstChild .second (XElem.mk .pair none
            [xmlAdd a (.mk .first none []), xmlAdd b (.mk .second none [])])
            = some (xmlAdd b (.mk .second none [])) := by
          cases a <;> cases b <;> rfl
        show xmlGet (.pr t1 t2) prior (XElem.mk tg none [XElem.mk .pair none
          [xmlAdd a (.mk .first none []), xmlAdd b (.mk .second none [])]])
          = .ok (.pr a b)
        rw [xmlGet]
        simp only [hfp, hff]
        rw [ih a hsa t1 .first _ hty.1 hwf.1 hsafe.1]
        simp only [drBind, hfs]
        rw [ih b hsb t2 .second _ hty.2 hwf.2 hsafe.2]
      case vec.vec t xs =>
        simp only [wfB, Bool.and_eq_true, decide_eq_true_eq] at hwf
        simp only [xmlSafe, Bool.and_eq_true, decide_eq_true_eq] at hsafe
        have hxs : sizeOf xs ≤ n + 1 := by
          simp only [Val.vec.sizeOf_spec] at hv
          omega
        have hitems : childrenTagged .item (XElem.mk .vector none
            (lengthElem xs.length :: xmlItems xs)) = xmlItems xs := by
          show List.filter _ (lengthElem xs.length :: xmlItems xs) = _
          rw [List.filter_cons_of_neg (by simp [lengthElem, tagOf]),
            filter_items]
        show xmlGet (.vec t) prior (XElem.mk tg none [XElem.mk .vector none
          (lengthElem xs.length :: xmlItems xs)]) = .ok (.vec xs)
        rw [xmlGet]
        show (match firstChild .length (XElem.mk .vector none
          (lengthElem xs.length :: xmlItems xs)) with
          | none => DRes.ub
          | some lenE => _) = _
        simp only [show firstChild .length (XElem.mk .vector none
          (lengthElem xs.length :: xmlItems xs))
          = some (lengthElem xs.length) from rfl]
        rw [xmlGetScalar_length xs.length hwf.1 hsafe.1]
        simp only [drBind, hitems]
        rw [xmlGetItems_of t xs (hmem xs hxs) hty hwf.2 hsafe.2]
      case lst.lst t xs =>
        simp only [wfB, Bool.and_eq_true, decide_eq_true_eq] at hwf
        simp only [xmlSafe, Bool.and_eq_true, decide_eq_true_eq] at hsafe
        have hxs : sizeOf xs ≤ n + 1 := by
          simp only [Val.lst.sizeOf_spec] at hv
          omega
        have hitems : childrenTagged .item (XElem.mk .list none
            (lengthElem xs.length :: xmlItems xs)) = xmlItems xs := by
          show List.filter _ (lengthElem xs.length :: xmlItems xs) = _
          rw [List.filter_cons_of_neg (by simp [lengthElem, tagOf]),
            filter_items]
        show xmlGet (.lst t) prior (XElem.mk tg none [XElem.mk .list none
          (lengthElem xs.length :: xmlItems xs)]) = .ok (.lst xs)
        rw [xmlGet]
        show (match firstChild .length (XElem.mk .list none
          (lengthElem xs.length :: xmlItems xs)) with
          | none => DRes.ub
          | some lenE => _) = _
        simp only [show firstChild .length (XElem.mk .list none
          (lengthElem xs.length :: xmlItems xs))
          = some (lengthElem xs.length) from rfl]
        rw [xmlGetScalar_length xs.length hwf.1 hsafe.1]
        simp only [drBind, hitems]
        rw [xmlGetItems_of t xs (hmem xs hxs) hty hwf.2 hsafe.2]
      case set.set t xs =>
        simp only [wfB, Bool.and_eq_true, decide_eq_true_eq] at hwf
        obtain ⟨⟨hlen, hwfl⟩, hsort⟩ := hwf
        simp only [xmlSafe, Bool.and_eq_true, decide_eq_true_eq] at hsafe
        have hxs : sizeOf xs ≤ n + 1 := by
          simp only [Val.set.sizeOf_spec] at hv
          omega
        have hitems : childrenTagged .item (XElem.mk .set none
            (lengthElem xs.length :: xmlItems xs)) = xmlItems xs := by
          show List.filter _ (lengthElem xs.length :: xmlItems xs) = _
          rw [List.filter_cons_of_neg (by simp [lengthElem, tagOf]),
            filter_items]
        show xmlGet (.set t) prior (XElem.mk tg none [XElem.mk .set none
          (lengthElem xs.length :: xmlItems xs)]) = .ok (.set xs)
        rw [xmlGet]
        show (match firstChild .length (XElem.mk .set none
          (lengthElem xs.length :: xmlItems xs)) with
          | none => DRes.ub
          | some lenE => _) = _
        simp only [show firstChild .length (XElem.mk .set none
          (lengthElem xs.length :: xmlItems xs))
          = some (lengthElem xs.length) from rfl]
        rw [xmlGetScalar_length xs.length hlen hsafe.1]
        simp only [drBind, hitems]
        rw [xmlGetSet_of t xs (hmem xs hxs) hty hwfl hsafe.2 hsort []
          (by intro y hy; simp at hy)]
        rfl
      case map.map tk tv xs =>
        simp only [wfB, Bool.and_eq_true, decide_eq_true_eq] at hwf
        obtain ⟨⟨⟨hlen, hwfl⟩, hpairs⟩, hsort⟩ := hwf
        simp only [xmlSafe, Bool.and_eq_true, decide_eq_true_eq] at hsafe
        have hxs : sizeOf xs ≤ n + 1 := by
          simp only [Val.map.sizeOf_spec] at hv
          omega
        have hcomp : ∀ e ∈ xs, ∀ k v, e = Val.pr k v → XmlRT k ∧ XmlRT v := by
          intro e he k v hkv
          subst hkv
          have h1 := List.sizeOf_lt_of_mem he
          have h2 := val_sizeOf_pos k
          have h3 := val_sizeOf_pos v
          simp only [Val.pr.sizeOf_spec] at h1
          exact ⟨ih k (by omega), ih v (by omega)⟩
        have hitems : childrenTagged .item (XElem.mk .map none
            (lengthElem xs.length :: xmlMapItems xs)) = xmlMapItems xs := by
          show List.filter _ (lengthElem xs.length :: xmlMapItems xs) = _
          rw [List.filter_cons_of_neg (by simp [lengthElem, tagOf]),
            filter_mapItems]
        show xmlGet (.map tk tv) prior (XElem.mk tg none [XElem.mk .map none
          (lengthElem xs.length :: xmlMapItems xs)]) = .ok (.map xs)
        rw [xmlGet]
        show (match firstChild .length (XElem.mk .map none
          (lengthElem xs.length :: xmlMapItems xs)) with
          | none => DRes.ub
          | some lenE => _) = _
        simp only [show firstChild .length (XElem.mk .map none
          (lengthElem xs.length :: xmlMapItems xs))
          = some (lengthElem xs.length) from rfl]
        rw [xmlGetScalar_length xs.length hlen hsafe.1]
        simp only [drBind, hitems]
        rw [xmlGetMap_of tk tv xs hcomp hty hwfl hsafe.2 hsort []
          (by intro y hy; simp at hy)]
        rfl

/-- Every well-typed, well-formed, document-safe value round-trips under
the document codec on a fresh element. -/
theorem xmlRT_all (v : Val) : XmlRT v :=
  xmlRT_aux (sizeOf v) v (Nat.le_refl _)

end XMLSerialize


namespace XMLSerialize

/- The document reader ignores the destination's prior contents: the
prior value is threaded (mirroring the C++ reference parameter) but never
inspected except to be decomposed for pairs, and each leaf overwrites it. -/
theorem xmlGet_prior_indep :
    ∀ (t : Ty) (p1 p2 : Val) (pos : XElem),
      xmlGet t p1 pos = xmlGet t p2 pos := by
  intro t
  induction t with
  | scalar w sg => intro p1 p2 pos; rfl
  | str => intro p1 p2 pos; rfl
  | pr t1 t2 ih1 ih2 =>
      intro p1 p2 pos
      rw [xmlGet, xmlGet]
      split
      · rfl
      · split
        · rfl
        · rw [ih1 (BinarySerialize.priorComps t1 t2 p1).1
            (BinarySerialize.priorComps t1 t2 p2).1]
          cases xmlGet t1 (BinarySerialize.priorComps t1 t2 p2).1 _ with
          | ok a =>
              simp only [drBind]
              split
              · rfl
              · rw [ih2 (BinarySerialize.priorComps t1 t2 p1).2
                  (BinarySerialize.priorComps t1 t2 p2).2]
          | err e => rfl
          | ub => rfl
  | vec t ih => intro p1 p2 pos; rfl
  | lst t ih => intro p1 p2 pos; rfl
  | set t ih => intro p1 p2 pos; rfl
  | map tk tv ih1 ih2 => intro p1 p2 pos; rfl

/- Byte bound of a string "val" attribute: the only attribute content
that carries raw value bytes. -/
def wfAttrB : Option AttrV → Bool
  | some (.str s) => s.all (fun b => b < 256)
  | _ => true

/- Elements whose string attributes hold genuine bytes; what the writer
produces from well-formed values, and what the printed text needs so
that every printed byte is a byte. -/
mutual
def wfElemB : XElem → Bool
  | .mk _ a cs => wfAttrB a && wfElemsB cs
def wfElemsB : List XElem → Bool
  | [] => true
  | e :: es => wfElemB e && wfElemsB es
end

theorem wfElemsB_append (cs : List XElem) (c : XElem)
    (h1 : wfElemsB cs = true) (h2 : wfElemB c = true) :
    wfElemsB (cs ++ [c]) = true := by
  induction cs with
  | nil =>
      simp only [List.nil_append, wfElemsB, h2]
      rfl
  | cons e es ih =>
      rw [wfElemsB] at h1
      have h3 := Bool.and_eq_true _ _ |>.mp h1
      show wfElemsB (e :: (es ++ [c])) = true
      rw [wfElemsB, h3.1, ih h3.2]
      rfl

theorem xmlAdd_wfElem :
    ∀ (n : Nat) (v : Val), sizeOf v ≤ n → wfB v = true →
      ∀ pos, wfElemB pos = true → wfElemB (xmlAdd v pos) = true := by
  intro n
  induction n with
  | zero =>
      intro v hv
      have := val_sizeOf_pos v
      omega
  | succ n ih =>
      intro v hv hwf pos hpos
      obtain ⟨tg, a0, cs⟩ := pos
      rw [wfElemB] at hpos
      have hp := Bool.and_eq_true _ _ |>.mp hpos
      have hlistwf : ∀ (xs : List Val), sizeOf xs ≤ n + 1 →
          wfListB xs = true → wfElemsB (xmlItems xs) = true := by
        intro xs hxs hxw
        induction xs with
        | nil => rfl
        | cons x xs2 ihx =>
            have hxw1 := Bool.and_eq_true _ _ |>.mp
              (by rw [wfListB] at hxw; exact hxw)
            have hsz2 : sizeOf xs2 ≤ n + 1 := by
              simp only [List.cons.sizeOf_spec] at hxs
              have := val_sizeOf_pos x
              omega
            have hsx : sizeOf x ≤ n := by
              simp only [List.cons.sizeOf_spec] at hxs
              omega
            show wfElemsB (xmlAdd x (.mk .item none []) :: xmlItems xs2) = true
            rw [wfElemsB, ih x hsx hxw1.1 (.mk .item none []) rfl,
              ihx hsz2 hxw1.2]
            rfl
      cases v with
      | scalar w sg bits =>
          show wfElemB (.mk tg (some (.int (interpScalar w sg bits))) cs) = true
          rw [wfElemB]
          simp only [wfAttrB, hp.2]
          rfl
      | str s =>
          rw [wfB] at hwf
          have hs := Bool.and_eq_true _ _ |>.mp hwf
          show wfElemB (.mk tg (some (.str s)) cs) = true
          rw [wfElemB]
          simp only [wfAttrB, hs.2, hp.2]
          rfl
      | pr va vb =>
          rw [wfB] at hwf
          have hw2 := Bool.and_eq_true _ _ |>.mp hwf
          have hsa : sizeOf va ≤ n := by
            simp only [Val.pr.sizeOf_spec] at hv
            have := val_sizeOf_pos vb
            omega
          have hsb : sizeOf vb ≤ n := by
            simp only [Val.pr.sizeOf_spec] at hv
            have := val_sizeOf_pos va
            omega
          have hc : wfElemB (XElem.mk .pair none
              [xmlAdd va (.mk .first none []), xmlAdd vb (.mk .second none [])])
              = true := by
            rw [wfElemB]
            show (wfAttrB none && wfElemsB [xmlAdd va (.mk .first none []),
              xmlAdd vb (.mk .second none [])]) = true
            rw [wfElemsB, wfElemsB, ih va hsa hw2.1 (.mk .first none []) rfl,
              ih vb hsb hw2.2 (.mk .second none []) rfl]
            rfl
          show wfElemB (.mk tg a0 (cs ++ [.mk .pair none
            [xmlAdd va (.mk .first none []), xmlAdd vb (.mk .second none [])]]))
            = true
          rw [wfElemB, wfElemsB_append cs _ hp.2 hc, hp.1]
          rfl
      | vec xs =>
          rw [wfB] at hwf
          have hw2 := Bool.and_eq_true _ _ |>.mp hwf
          have hsz : sizeOf xs ≤ n + 1 := by
            simp only [Val.vec.sizeOf_spec] at hv
            omega
          have hc : wfElemB (XElem.mk .vector none
              (lengthElem xs.length :: xmlItems xs)) = true := by
            rw [wfElemB, wfElemsB, hlistwf xs hsz hw2.2]
            rfl
          show wfElemB (.mk tg a0 (cs ++ [.mk .vector none
            (lengthElem xs.length :: xmlItems xs)])) = true
          rw [wfElemB, wfElemsB_append cs _ hp.2 hc, hp.1]
          rfl
      | lst xs =>
          rw [wfB] at hwf
          have hw2 := Bool.and_eq_true _ _ |>.mp hwf
          have hsz : sizeOf xs ≤ n + 1 := by
            simp only [Val.lst.sizeOf_spec] at hv
            omega
          have hc : wfElemB (XElem.mk .list none
              (lengthElem xs.length :: xmlItems xs)) = true := by
            rw [wfElemB, wfElemsB, hlistwf xs hsz hw2.2]
            rfl
          show wfElemB (.mk tg a0 (cs ++ [.mk .list none
            (lengthElem xs.length :: xmlItems xs)])) = true
          rw [wfElemB, wfElemsB_append cs _ hp.2 hc, hp.1]
          rfl
      | set xs =>
          rw [wfB] at hwf
          have hw2 := Bool.and_eq_true _ _ |>.mp hwf
          have hsz : sizeOf xs ≤ n + 1 := by
            simp only [Val.set.sizeOf_spec] at hv
            omega
          have hw3 := Bool.and_eq_true _ _ |>.mp hw2.1
          have hc : wfElemB (XElem.mk .set none
              (lengthElem xs.length :: xmlItems xs)) = true := by
            rw [wfElemB, wfElemsB, hlistwf xs hsz hw3.2]
            rfl
          show wfElemB (.mk tg a0 (cs ++ [.mk .set none
            (lengthElem xs.length :: xmlItems xs)])) = true
          rw [wfElemB, wfElemsB_append cs _ hp.2 hc, hp.1]
          rfl
      | map xs =>
          rw [wfB] at hwf
          have hw2 := Bool.and_eq_true _ _ |>.mp hwf
          have hsz : sizeOf xs ≤ n + 1 := by
            simp only [Val.map.sizeOf_spec] at hv
            omega
          have hmapwf : ∀ (ys : List Val), sizeOf ys ≤ n + 1 →
              wfListB ys = true → wfElemsB (xmlMapItems ys) = true := by
            intro ys hys hyw
            induction ys with
            | nil => rfl
            | cons y ys2 ihy =>
                have hyw1 := Bool.and_eq_true _ _ |>.mp
                  (by rw [wfListB] at hyw; exact hyw)
                have hsz2 : sizeOf ys2 ≤ n + 1 := by
                  simp only [List.cons.sizeOf_spec] at hys
                  have := val_sizeOf_pos y
                  omega
                cases y with
                | pr k v2 =>
                    have hkv := Bool.and_eq_true _ _ |>.mp
                      (by rw [wfB] at hyw1; exact hyw1.1)
                    have h2k : sizeOf k ≤ n := by
                      simp only [List.cons.sizeOf_spec,
                        Val.pr.sizeOf_spec] at hys
                      have := val_sizeOf_pos v2
                      omega
                    have h2v : sizeOf v2 ≤ n := by
                      simp only [List.cons.sizeOf_spec,
                        Val.pr.sizeOf_spec] at hys
                      have := val_sizeOf_pos k
                      omega
                    show wfElemsB (XElem.mk .item none
                      [xmlAdd k (.mk .key none []),
                       xmlAdd v2 (.mk .value none [])] :: xmlMapItems ys2) = true
                    rw [wfElemsB, ihy hsz2 hyw1.2]
                    rw [wfElemB]
                    show (wfAttrB none && wfElemsB [xmlAdd k (.mk .key none []),
                      xmlAdd v2 (.mk .value none [])] && true) = true
                    rw [wfElemsB, wfElemsB,
                      ih k h2k hkv.1 (.mk .key none []) rfl,
                      ih v2 h2v hkv.2 (.mk .value none []) rfl]
                    rfl
                | scalar w sg bits =>
                    show wfElemsB (XElem.mk .item none [] :: xmlMapItems ys2)
                      = true
                    rw [wfElemsB, ihy hsz2 hyw1.2]
                    rfl
                | str s =>
                    show wfElemsB (XElem.mk .item none [] :: xmlMapItems ys2)
                      = true
                    rw [wfElemsB, ihy hsz2 hyw1.2]
                    rfl
                | vec zs =>
                    show wfElemsB (XElem.mk .item none [] :: xmlMapItems ys2)
                      = true
                    rw [wfElemsB, ihy hsz2 hyw1.2]
                    rfl
                | lst zs =>
                    show wfElemsB (XElem.mk .item none [] :: xmlMapItems ys2)
                      = true
                    rw [wfElemsB, ihy hsz2 hyw1.2]
                    rfl
                | set zs =>
                    show wfElemsB (XElem.mk .item none [] :: xmlMapItems ys2)
                      = true
                    rw [wfElemsB, ihy hsz2 hyw1.2]
                    rfl
                | map zs =>
                    show wfElemsB (XElem.mk .item none [] :: xmlMapItems ys2)
                      = true
                    rw [wfElemsB, ihy hsz2 hyw1.2]
                    rfl
          have hw3 := Bool.and_eq_true _ _ |>.mp hw2.1
          have hw4 := Bool.and_eq_true _ _ |>.mp hw3.1
          have hc : wfElemB (XElem.mk .map none
              (lengthElem xs.length :: xmlMapItems xs)) = true := by
            rw [wfElemB, wfElemsB, hmapwf xs hsz hw4.2]
            rfl
          show wfElemB (.mk tg a0 (cs ++ [.mk .map none
            (lengthElem xs.length :: xmlMapItems xs)])) = true
          rw [wfElemB, wfElemsB_append cs _ hp.2 hc, hp.1]
          rfl

end XMLSerialize

namespace XMLSerialize

/-! ## Printed text is made of bytes -/

theorem unaryEnc_lt (n : Nat) : ∀ b ∈ unaryEnc n, b < 256 := by
  intro b hb
  rw [unaryEnc] at hb
  rcases List.mem_append.mp hb with h | h
  · rw [List.eq_of_mem_replicate h]
    omega
  · rcases List.mem_singleton.mp h with rfl
    omega

theorem intEnc_lt (n : Int) : ∀ b ∈ intEnc n, b < 256 := by
  intro b hb
  rw [intEnc] at hb
  rcases List.mem_cons.mp hb with h | h
  · subst h
    split <;> omega
  · exact unaryEnc_lt _ b h

theorem printAttr_lt (a : Option AttrV) (ha : wfAttrB a = true) :
    ∀ b ∈ printAttr a, b < 256 := by
  intro b hb
  match a with
  | none =>
      rcases List.mem_singleton.mp hb with rfl
      omega
  | some (.int n) =>
      rcases List.mem_cons.mp hb with rfl | h
      · omega
      · exact intEnc_lt _ b h
  | some (.dyadic m k) =>
      rcases List.mem_cons.mp hb with rfl | h
      · omega
      · rcases List.mem_append.mp h with h2 | h2
        · exact intEnc_lt _ b h2
        · exact unaryEnc_lt _ b h2
  | some (.str s) =>
      rcases List.mem_cons.mp hb with rfl | h
      · omega
      · rcases List.mem_append.mp h with h2 | h2
        · exact unaryEnc_lt _ b h2
        · exact of_decide_eq_true (List.all_eq_true.mp ha b h2)

theorem tagIdx_lt (t : XTag) : tagIdx t < 256 := by
  cases t <;> decide

theorem printElem_lt :
    ∀ (n : Nat) (e : XElem), sizeOf e ≤ n → wfElemB e = true →
      ∀ b ∈ printElem e, b < 256 := by
  intro n
  induction n with
  | zero =>
      intro e he
      obtain ⟨t, a, cs⟩ := e
      simp only [XElem.mk.sizeOf_spec] at he
      omega
  | succ n ih =>
      intro e he hwf b hb
      obtain ⟨t, a, cs⟩ := e
      rw [wfElemB] at hwf
      have hp := Bool.and_eq_true _ _ |>.mp hwf
      have hcs : sizeOf cs ≤ n := by
        simp only [XElem.mk.sizeOf_spec] at he
        omega
      have hlist : ∀ (cs2 : List XElem), sizeOf cs2 ≤ n →
          wfElemsB cs2 = true → ∀ b2 ∈ printList cs2, b2 < 256 := by
        intro cs2
        induction cs2 with
        | nil => intro _ _ b2 hb2; cases hb2
        | cons c cs3 ihc =>
            intro hsz hcw b2 hb2
            have hcw1 := Bool.and_eq_true _ _ |>.mp
              (by rw [wfElemsB] at hcw; exact hcw)
            have hszc : sizeOf c ≤ n := by
              simp only [List.cons.sizeOf_spec] at hsz
              obtain ⟨t3, a3, cs4⟩ := c
              simp only [XElem.mk.sizeOf_spec] at hsz ⊢
              omega
            have hszr : sizeOf cs3 ≤ n := by
              simp only [List.cons.sizeOf_spec] at hsz
              obtain ⟨t3, a3, cs4⟩ := c
              simp only [XElem.mk.sizeOf_spec] at hsz
              omega
            rw [show printList (c :: cs3) = printElem c ++ printList cs3
              from rfl] at hb2
            rcases List.mem_append.mp hb2 with h2 | h2
            · exact ih c hszc hcw1.1 b2 h2
            · exact ihc hszr hcw1.2 b2 h2
      rw [show printElem (.mk t a cs)
        = tagIdx t :: (printAttr a ++ (unaryEnc cs.length ++ printList cs))
        from rfl] at hb
      rcases List.mem_cons.mp hb with rfl | h
      · exact tagIdx_lt t
      · rcases List.mem_append.mp h with h2 | h2
        · exact printAttr_lt a hp.1 b h2
        · rcases List.mem_append.mp h2 with h3 | h3
          · exact unaryEnc_lt _ b h3
          · exact hlist cs hcs hp.2 b h3

theorem docOf_elem_wf (v : Val) (hwf : wfB v = true) :
    wfElemB (.mk .serialization none [xmlAdd v (.mk .field none [])]) = true := by
  have h1 : wfElemB (xmlAdd v (.mk .field none [])) = true :=
    xmlAdd_wfElem (sizeOf v) v (Nat.le_refl _) hwf _ rfl
  show (wfAttrB none && (wfElemB (xmlAdd v (.mk .field none [])) && true))
    = true
  rw [h1]
  rfl

theorem docOf_wf (v : Val) (hwf : wfB v = true) :
    wfElemsB (docOf v) = true := by
  show (wfElemB (XElem.mk .serialization none
    [xmlAdd v (.mk .field none [])]) && true) = true
  rw [docOf_elem_wf v hwf]
  rfl

theorem printDoc_lt (v : Val) (hwf : wfB v = true) :
    ∀ b ∈ printDoc (docOf v), b < 256 := by
  intro b hb
  rw [printDoc] at hb
  rcases List.mem_append.mp hb with h | h
  · exact unaryEnc_lt _ b h
  · have hd1 := docOf_elem_wf v hwf
    rw [show printList (docOf v)
      = printElem (.mk .serialization none [xmlAdd v (.mk .field none [])])
        ++ printList [] from rfl,
      show printList ([] : List XElem) = [] from rfl, List.append_nil] at h
    exact printElem_lt _ _ (Nat.le_refl _) hd1 b h

/-! ## Full-session identities for the three persisted encodings -/

theorem initFields_docOf (v : Val) :
    initFields (docOf v) = .ok [xmlAdd v (.mk .field none [])] := by
  have hfield : childrenTagged .field
      (XElem.mk .serialization none [xmlAdd v (.mk .field none [])])
      = [xmlAdd v (.mk .field none [])] := by
    rw [childrenTagged]
    show List.filter _ [xmlAdd v (.mk .field none [])] = _
    rw [List.filter_cons_of_pos (by rw [xmlAdd_tag]; rfl)]
    rfl
  rw [initFields]
  show (match childrenTagged .field (XElem.mk .serialization none
    [xmlAdd v (.mk .field none [])]) with
    | [] => DRes.err .structural
    | fs => DRes.ok fs) = _
  rw [hfield]

/- The persisted text-mode session, reduced to the in-memory document
read of the single stored field.  No well-formedness is needed: printing
and re-parsing the document is the identity on the element tree. -/
theorem xml_text_pipeline (fs : FileSys) (v : Val) (t : Ty)
    (file_name : String) (hw : fs.badWrite file_name = false) :
    deserialize_xml t (serialize_xml fs v file_name) file_name
      = drBind (xmlGet t (defaultVal t) (xmlAdd v (.mk .field none [])))
          (fun r => .ok r) := by
  have hparse := parseDocO_printDoc (docOf v) []
  rw [List.append_nil] at hparse
  simp only [serialize_xml, hw, Bool.false_eq_true, if_false,
    deserialize_xml, eq_self_iff_true, if_true, hparse, initFields_docOf,
    drBind, readField]
  cases xmlGet t (defaultVal t) (xmlAdd v (.mk .field none [])) with
  | ok a => rfl
  | err e => rfl
  | ub => rfl

/- The persisted Base64 binary-mode session, likewise reduced; the
well-formedness bound is what makes every printed byte a byte, so that
the Base64 round trip applies. -/
theorem xml_b64_pipeline (fs : FileSys) (v : Val) (t : Ty)
    (file_name : String) (hw : fs.badWrite file_name = false)
    (hwf : wfB v = true) :
    deserialize_xml_base64 t (serialize_xml_base64 fs v file_name) file_name
      = drBind (xmlGet t (defaultVal t) (xmlAdd v (.mk .field none [])))
          (fun r => .ok r) := by
  have hbytes : ∀ b ∈ printDoc (docOf v) ++ [0], b < 256 := by
    intro b hb
    rcases List.mem_append.mp hb with h | h
    · exact printDoc_lt v hwf b h
    · rcases List.mem_singleton.mp h with rfl
      omega
  simp only [serialize_xml_base64, hw, Bool.false_eq_true, if_false,
    deserialize_xml_base64, eq_self_iff_true, if_true,
    (base64_roundtrip (printDoc (docOf v) ++ [0]) hbytes).1,
    parseDocO_printDoc (docOf v) [0], Option.getD_some, initFields_docOf,
    drBind, readField]
  cases xmlGet t (defaultVal t) (xmlAdd v (.mk .field none [])) with
  | ok a => rfl
  | err e => rfl
  | ub => rfl

end XMLSerialize

namespace BinarySerialize

/- The persisted binary-mode session: writing to a writable target and
reading back recovers any well-typed, well-formed value. -/
theorem binary_pipeline (fs : FileSys) (v : Val) (t : Ty)
    (file_name : String) (hw : fs.badWrite file_name = false)
    (hty : hasTy t v = true) (hwf : wfB v = true) :
    deserialize t (serialize fs v file_name) file_name = .ok v := by
  have h := binRT_all v t (defaultVal t) [] hty hwf
  rw [List.append_nil] at h
  simp only [serialize, hw, Bool.false_eq_true, if_false, deserialize,
    eq_self_iff_true, if_true, h]

end BinarySerialize

/-! ## File systems used as concrete sessions -/

def emptyFS : FileSys := { files := fun _ => none, badWrite := fun _ => false }

def badFS : FileSys := { files := fun _ => none, badWrite := fun _ => true }

namespace XMLSerialize

/-- C1 (counterexample): the text-document encoding is not the identity on
`int64_t`: serializing `2^53 + 1` and deserializing it back yields `2^53`,
because the reader parses the decimal text into a `double` first. -/
theorem roundtrip_precision_counterexample :
    deserialize_xml (.scalar 8 true)
        (serialize_xml emptyFS (.scalar 8 true (2 ^ 53 + 1)) "f") "f"
      = .ok (.scalar 8 true (2 ^ 53))
    ∧ Val.scalar 8 true (2 ^ 53) ≠ Val.scalar 8 true (2 ^ 53 + 1) := by
  constructor
  · rw [xml_text_pipeline emptyFS (.scalar 8 true (2 ^ 53 + 1))
      (.scalar 8 true) "f" rfl]
    rfl
  · intro h
    injection h with h1 h2 h3
    norm_num at h3

/-- C1 (amended): every well-typed, well-formed value round-trips through
the binary encoding; through the two document encodings it round-trips
when every scalar it contains (and every container length) stays within
the exact-integer range of `double`, the text form's intermediate parse
type — outside that range the document codecs are lossy
(`roundtrip_precision_counterexample`). -/
theorem roundtrip_three_encodings (fs : FileSys) (v : Val) (t : Ty)
    (file_name : String) (hw : fs.badWrite file_name = false)
    (hty : hasTy t v = true) (hwf : wfB v = true) :
    BinarySerialize.deserialize t
        (BinarySerialize.serialize fs v file_name) file_name = .ok v
    ∧ (xmlSafe v = true →
        deserialize_xml t (serialize_xml fs v file_name) file_name = .ok v
        ∧ deserialize_xml_base64 t
            (serialize_xml_base64 fs v file_name) file_name = .ok v) := by
  refine ⟨BinarySerialize.binary_pipeline fs v t file_name hw hty hwf,
    fun hsafe => ⟨?_, ?_⟩⟩
  · rw [xml_text_pipeline fs v t file_name hw,
      xmlRT_all v t .field (defaultVal t) hty hwf hsafe]
    rfl
  · rw [xml_b64_pipeline fs v t file_name hw hwf,
      xmlRT_all v t .field (defaultVal t) hty hwf hsafe]
    rfl

theorem roundtrip_three_encodings_witness :
    BinarySerialize.deserialize (.pr (.scalar 4 true) .str)
        (BinarySerialize.serialize emptyFS
          (.pr (.scalar 4 true 7) (.str [65])) "f") "f"
      = .ok (.pr (.scalar 4 true 7) (.str [65]))
    ∧ deserialize_xml (.pr (.scalar 4 true) .str)
        (serialize_xml emptyFS (.pr (.scalar 4 true 7) (.str [65])) "f") "f"
      = .ok (.pr (.scalar 4 true 7) (.str [65]))
    ∧ deserialize_xml_base64 (.pr (.scalar 4 true) .str)
        (serialize_xml_base64 emptyFS
          (.pr (.scalar 4 true 7) (.str [65])) "f") "f"
      = .ok (.pr (.scalar 4 true 7) (.str [65])) := by
  have h := roundtrip_three_encodings emptyFS
    (.pr (.scalar 4 true 7) (.str [65])) (.pr (.scalar 4 true) .str) "f"
    rfl (by decide) (by decide)
  exact ⟨h.1, (h.2 (by decide)).1, (h.2 (by decide)).2⟩

theorem runReadsAux_exhaust :
    ∀ (ts : List Ty) (fields : List XElem) (vs : List Val) (t : Ty),
      runReadsAux ts fields = .ok vs → fields.length = ts.length →
      runReadsAux (ts ++ [t]) fields = .err .structural := by
  intro ts
  induction ts with
  | nil =>
      intro fields vs t h hlen
      have hf : fields = [] := List.eq_nil_of_length_eq_zero hlen
      subst hf
      rfl
  | cons t0 ts ih =>
      intro fields vs t h hlen
      cases fields with
      | nil =>
          simp only [runReadsAux, readField, drBind] at h
          exact DRes.noConfusion h
      | cons f rest =>
          have hlen2 : rest.length = ts.length := by
            simp only [List.length_cons] at hlen
            omega
          cases hx : xmlGet t0 (defaultVal t0) f with
          | ok a =>
              simp only [runReadsAux, readField, hx, drBind,
                List.append_eq] at h ⊢
              cases hr : runReadsAux ts rest with
              | ok vs2 =>
                  rw [ih rest vs2 t hr hlen2]
              | err e =>
                  rw [hr] at h
                  exact DRes.noConfusion h
              | ub =>
                  rw [hr] at h
                  exact DRes.noConfusion h
          | err e =>
              simp only [runReadsAux, readField, hx, drBind] at h
              exact DRes.noConfusion h
          | ub =>
              simp only [runReadsAux, readField, hx, drBind] at h
              exact DRes.noConfusion h

/-- C5: the reader construction fails with a structural error when the
document has no `<serialization>` root, or when the root has no `<field>`
child; and a read session that exhausts the stored fields fails its next
per-field `process` call with a structural error instead of producing a
default value. -/
theorem session_structural_errors
    (docE docR doc : List XElem) (root : XElem) (fields : List XElem)
    (ts : List Ty) (t : Ty) (vs : List Val)
    (h1 : findRoot docE = none)
    (h2 : findRoot docR = some root)
    (h3 : childrenTagged .field root = [])
    (h4 : initFields doc = .ok fields)
    (h5 : runReadsAux ts fields = .ok vs)
    (h6 : fields.length = ts.length) :
    initFields docE = .err .structural
    ∧ initFields docR = .err .structural
    ∧ runReads doc (ts ++ [t]) = .err .structural := by
  refine ⟨?_, ?_, ?_⟩
  · simp only [initFields, h1]
  · simp only [initFields, h2, h3]
  · rw [runReads, h4]
    show runReadsAux (ts ++ [t]) fields = .err .structural
    exact runReadsAux_exhaust ts fields vs t h5 h6

theorem session_structural_errors_witness :
    initFields [] = .err .structural
    ∧ initFields [XElem.mk .serialization none []] = .err .structural
    ∧ runReads (docOf (.scalar 1 false 5)) ([.scalar 1 false] ++ [.str])
        = .err .structural :=
  session_structural_errors [] [.mk .serialization none []]
    (docOf (.scalar 1 false 5)) (.mk .serialization none [])
    [xmlAdd (.scalar 1 false 5) (.mk .field none [])]
    [.scalar 1 false] .str [.scalar 1 false 5]
    rfl rfl rfl rfl rfl rfl

/-- A persisted document whose single `<field>` carries no children and
no "val" attribute: what a writer for a different shape leaves behind. -/
def mismatchFS : FileSys :=
  { files := fun n =>
      if n = "f"
      then some (printDoc [.mk .serialization none [.mk .field none []]])
      else none,
    badWrite := fun _ => false }

/-- C6 (counterexample): reading a pair from a stored document whose
`<field>` has no `<pair>` child dereferences the null `FirstChildElement`
result — undefined behaviour, not the structural error the spec
promises. -/
theorem shape_mismatch_counterexample :
    deserialize_xml (.pr .str .str) mismatchFS "f" = .ub
    ∧ (DRes.ub : DRes Val) ≠ .err .structural := by
  constructor
  · have hparse := parseDocO_printDoc
      [XElem.mk .serialization none [.mk .field none []]] []
    rw [List.append_nil] at hparse
    simp only [deserialize_xml, mismatchFS, eq_self_iff_true, if_true, hparse]
    rfl
  · exact fun h => DRes.noConfusion h

/-- C6 (amended): below the top-level field cursor, a shape mismatch is
never detected: whichever category the reader expects (pair, vector,
list, set, map, scalar, string), an element missing the expected child
or attribute is dereferenced unchecked — undefined behaviour, for every
expected element type.  Structural errors are raised only for the root,
the field cursor, and a failed document parse. -/
theorem shape_mismatch_ub (t1 t2 te tk tv : Ty) (prior : Val) (pos : XElem)
    (hpair : firstChild .pair pos = none)
    (hvec : firstChild .vector pos = none)
    (hlst : firstChild .list pos = none)
    (hset : firstChild .set pos = none)
    (hmap : firstChild .map pos = none)
    (hattr : attrOf pos = none) :
    xmlGet (.pr t1 t2) prior pos = .ub
    ∧ xmlGet (.vec te) prior pos = .ub
    ∧ xmlGet (.lst te) prior pos = .ub
    ∧ xmlGet (.set te) prior pos = .ub
    ∧ xmlGet (.map tk tv) prior pos = .ub
    ∧ xmlGet (.scalar 8 true) prior pos = .ub
    ∧ xmlGet .str prior pos = .ub := by
  refine ⟨?_, ?_, ?_, ?_, ?_, ?_, ?_⟩
  · simp only [xmlGet, hpair]
  · simp only [xmlGet, hvec]
  · simp only [xmlGet, hlst]
  · simp only [xmlGet, hset]
  · simp only [xmlGet, hmap]
  · simp only [xmlGet, xmlGetScalar, hattr]
  · simp only [xmlGet, hattr]

theorem shape_mismatch_ub_witness :
    xmlGet (.pr .str .str) (defaultVal (.pr .str .str)) (.mk .field none [])
      = .ub
    ∧ xmlGet (.vec .str) (defaultVal (.pr .str .str)) (.mk .field none [])
      = .ub
    ∧ xmlGet (.lst .str) (defaultVal (.pr .str .str)) (.mk .field none [])
      = .ub
    ∧ xmlGet (.set .str) (defaultVal (.pr .str .str)) (.mk .field none [])
      = .ub
    ∧ xmlGet (.map .str .str) (defaultVal (.pr .str .str))
        (.mk .field none []) = .ub
    ∧ xmlGet (.scalar 8 true) (defaultVal (.pr .str .str))
        (.mk .field none []) = .ub
    ∧ xmlGet .str (defaultVal (.pr .str .str)) (.mk .field none []) = .ub :=
  shape_mismatch_ub .str .str .str .str .str (defaultVal (.pr .str .str))
    (.mk .field none []) rfl rfl rfl rfl rfl rfl

/-- C8: the document codec stores a scalar as the single textual "val"
attribute of the current element (adding no child structure), and reads
it back by parsing the text as a `double` (`roundDouble` on integer
text, `truncDyadic` on floating text) followed by a cast to the
destination type (`castScalar`); in particular the integer `2^53 + 1`
exceeds `double`'s exact range and comes back as `2^53`, and the
floating value `3/2` read into an integral destination truncates
to `1`. -/
theorem scalar_textual_attribute (w : Nat) (sg : Bool) (bits : Nat)
    (pos : XElem) (prior : Val) (n : Int) (posn : XElem)
    (hattr : attrOf posn = some (.int n)) :
    (attrOf (xmlAdd (.scalar w sg bits) pos)
        = some (.int (interpScalar w sg bits))
      ∧ childrenOf (xmlAdd (.scalar w sg bits) pos) = childrenOf pos)
    ∧ xmlGet (.scalar w sg) prior posn
        = (match castScalar w sg (roundDouble n) with
           | some b => .ok (.scalar w sg b)
           | none => .ub)
    ∧ roundDouble (2 ^ 53 + 1) = 2 ^ 53
    ∧ xmlGetScalar 8 true (.mk .field (some (.dyadic 3 1)) [])
        = .ok (.scalar 8 true 1) := by
  obtain ⟨tp, ap, cp⟩ := pos
  refine ⟨⟨rfl, rfl⟩, ?_, by decide, rfl⟩
  simp only [xmlGet, xmlGetScalar, hattr]

theorem scalar_textual_attribute_witness :
    (attrOf (xmlAdd (.scalar 8 true 3) (.mk .field none []))
        = some (.int (interpScalar 8 true 3))
      ∧ childrenOf (xmlAdd (.scalar 8 true 3) (.mk .field none []))
        = childrenOf (.mk .field none []))
    ∧ xmlGet (.scalar 8 true) (.scalar 8 true 0)
        (.mk .field (some (.int 5)) []) = .ok (.scalar 8 true 5)
    ∧ roundDouble (2 ^ 53 + 1) = 2 ^ 53
    ∧ xmlGetScalar 8 true (.mk .field (some (.dyadic 3 1)) [])
        = .ok (.scalar 8 true 1) := by
  have h := scalar_textual_attribute 8 true 3 (.mk .field none [])
    (.scalar 8 true 0) 5 (.mk .field (some (.int 5)) []) rfl
  exact ⟨h.1, h.2.1.trans rfl, h.2.2.1, h.2.2.2⟩

end XMLSerialize

/-- C7: every container category is count-prefixed on the wire — the
binary form of vector, list, set and map is the 8-byte little-endian
element count followed by the elements, and the document form is a
container element whose first child is the `<length>` count element;
deserialization under both codecs is independent of the destination's
prior contents (the destination is cleared and repopulated); and a
binary vector read yields exactly as many elements as the count prefix
announces, whatever the wire's origin. -/
theorem container_count_contract (xs : List Val) (t tk tv : Ty)
    (p1 p2 : Val) (input : List Nat) (tg : XMLSerialize.XTag)
    (v' : Val) (rest : List Nat)
    (hdes : BinarySerialize.bdes (.vec t) p1 input = some (v', rest)) :
    (BinarySerialize.bser (.vec xs)
        = BinarySerialize.bytesLE 8 xs.length ++ BinarySerialize.bserList xs
      ∧ BinarySerialize.bser (.lst xs)
        = BinarySerialize.bytesLE 8 xs.length ++ BinarySerialize.bserList xs
      ∧ BinarySerialize.bser (.set xs)
        = BinarySerialize.bytesLE 8 xs.length ++ BinarySerialize.bserList xs
      ∧ BinarySerialize.bser (.map xs)
        = BinarySerialize.bytesLE 8 xs.length ++ BinarySerialize.bserList xs)
    ∧ (XMLSerialize.childrenOf (XMLSerialize.xmlAdd (.vec xs) (.mk tg none []))
        = [.mk .vector none
            (XMLSerialize.lengthElem xs.length :: XMLSerialize.xmlItems xs)]
      ∧ XMLSerialize.childrenOf (XMLSerialize.xmlAdd (.map xs) (.mk tg none []))
        = [.mk .map none
            (XMLSerialize.lengthElem xs.length
              :: XMLSerialize.xmlMapItems xs)])
    ∧ (∀ tA, BinarySerialize.bdes tA p1 input
        = BinarySerialize.bdes tA p2 input)
    ∧ (∀ tA pos, XMLSerialize.xmlGet tA p1 pos = XMLSerialize.xmlGet tA p2 pos)
    ∧ (∃ lb r, BinarySerialize.readBytes 8 input = some (lb, r)
        ∧ ∃ vs, v' = .vec vs ∧ vs.length = BinarySerialize.natLE lb) :=
  ⟨⟨rfl, rfl, rfl, rfl⟩, ⟨rfl, rfl⟩,
   fun tA => BinarySerialize.bdes_prior_indep tA p1 p2 input,
   fun tA pos => XMLSerialize.xmlGet_prior_indep tA p1 p2 pos,
   BinarySerialize.bdes_vec_count t p1 input v' rest hdes⟩

theorem container_count_contract_witness :
    (BinarySerialize.bser (.vec [Val.scalar 1 false 5])
        = BinarySerialize.bytesLE 8 1
            ++ BinarySerialize.bserList [Val.scalar 1 false 5]
      ∧ BinarySerialize.bser (.lst [Val.scalar 1 false 5])
        = BinarySerialize.bytesLE 8 1
            ++ BinarySerialize.bserList [Val.scalar 1 false 5]
      ∧ BinarySerialize.bser (.set [Val.scalar 1 false 5])
        = BinarySerialize.bytesLE 8 1
            ++ BinarySerialize.bserList [Val.scalar 1 false 5]
      ∧ BinarySerialize.bser (.map [Val.scalar 1 false 5])
        = BinarySerialize.bytesLE 8 1
            ++ BinarySerialize.bserList [Val.scalar 1 false 5])
    ∧ (XMLSerialize.childrenOf (XMLSerialize.xmlAdd (.vec [Val.scalar 1 false 5])
          (.mk .field none []))
        = [.mk .vector none
            (XMLSerialize.lengthElem 1
              :: XMLSerialize.xmlItems [Val.scalar 1 false 5])]
      ∧ XMLSerialize.childrenOf (XMLSerialize.xmlAdd (.map [Val.scalar 1 false 5])
          (.mk .field none []))
        = [.mk .map none
            (XMLSerialize.lengthElem 1
              :: XMLSerialize.xmlMapItems [Val.scalar 1 false 5])])
    ∧ (∀ tA, BinarySerialize.bdes tA (.vec [Val.str [9]])
          [1, 0, 0, 0, 0, 0, 0, 0, 5]
        = BinarySerialize.bdes tA (.vec []) [1, 0, 0, 0, 0, 0, 0, 0, 5])
    ∧ (∀ tA pos, XMLSerialize.xmlGet tA (.vec [Val.str [9]]) pos
        = XMLSerialize.xmlGet tA (.vec []) pos)
    ∧ (∃ lb r, BinarySerialize.readBytes 8 [1, 0, 0, 0, 0, 0, 0, 0, 5]
          = some (lb, r)
        ∧ ∃ vs, Val.vec [Val.scalar 1 false 5] = .vec vs
            ∧ vs.length = BinarySerialize.natLE lb) :=
  container_count_contract [Val.scalar 1 false 5] (.scalar 1 false)
    (.scalar 1 false) (.scalar 1 false) (.vec [Val.str [9]]) (.vec [])
    [1, 0, 0, 0, 0, 0, 0, 0, 5] .field (.vec [Val.scalar 1 false 5]) [] rfl

namespace BinarySerialize

/-- C9 (counterexample): the `BinarySerializer` constructor never checks
that the output stream opened: serializing to an unopenable target is a
silent no-op — no error is surfaced and no content is written — rather
than the fatal, immediately-surfaced I/O failure the spec promises for
write targets. -/
theorem write_failure_silent_counterexample :
    serialize badFS (.scalar 1 false 5) "f" = badFS
    ∧ (serialize badFS (.scalar 1 false 5) "f").files "f" = none
    ∧ badFS.badWrite "f" = true := by
  refine ⟨rfl, rfl, rfl⟩

/-- C9 (amended): opening the input target for reading fails with an I/O
error surfaced immediately when the target cannot be opened; a writable
output target is truncated — its whole prior content is replaced by the
new serialized bytes; but a write-open failure is silent (the
deserializer constructor checks `is_open`, the serializer constructor
does not). -/
theorem io_open_behaviour (fs : FileSys) (v : Val) (t : Ty)
    (file_name : String) :
    (fs.files file_name = none → deserialize t fs file_name = .err .io)
    ∧ (fs.badWrite file_name = false →
        (serialize fs v file_name).files file_name = some (bser v))
    ∧ (fs.badWrite file_name = true → serialize fs v file_name = fs) := by
  refine ⟨?_, ?_, ?_⟩
  · intro h
    rw [deserialize, h]
  · intro h
    simp only [serialize, h, Bool.false_eq_true, if_false,
      eq_self_iff_true, if_true]
  · intro h
    simp only [serialize, h, if_true]

theorem io_open_behaviour_witness :
    deserialize (.scalar 1 false) emptyFS "f" = .err .io
    ∧ (serialize emptyFS (.scalar 1 false 5) "f").files "f"
        = some (bser (.scalar 1 false 5))
    ∧ serialize badFS (.scalar 1 false 5) "g" = badFS :=
  ⟨(io_open_behaviour emptyFS (.scalar 1 false 5) (.scalar 1 false) "f").1 rfl,
   (io_open_behaviour emptyFS (.scalar 1 false 5) (.scalar 1 false) "f").2.1
     rfl,
   (io_open_behaviour badFS (.scalar 1 false 5) (.scalar 1 false) "g").2.2
     rfl⟩

end BinarySerialize
